import Mathlib

/-!
# The serial-to-HTTP motor bridge (`server.go`)

A shallow embedding of the ingestion pipeline of `server.go`: the framing step of
`readSerialData`, `processLine`, `determineStatus` and `serveData`, together with the
parts of the Go standard library they call (`strings.Split`, `strings.TrimSpace`,
`strings.Fields`, `strings.HasPrefix`, `fmt.Sscanf` with the verb `%f`).

Conventions of the embedding:

* a Go `string` is a list of bytes (`GoString`); a byte is a natural number below 256
  and the theorems hold for every list of naturals;
* a `float64` is `F64`: NaN, the two infinities, or a finite dyadic value `m * 2 ^ e`;
  negative zero is identified with zero (Go's `==`, `<` and `>=` do not tell them apart);
* the globals `runningMin`, `malfMin` are the record `Thresholds`; the globals
  `currentData` and the local `buffer` of `readSerialData` are fields of `State`, and
  what `log.Printf` writes is collected in the field `log`;
* the endless `for` loop of `readSerialData` is a fold of `loopStep` over the results of
  the successive calls to `port.Read`.
-/

namespace Motor

/-! ## Go strings -/

/-- A Go `string`: its bytes. -/
abbrev GoString := List Nat

/-- The bytes of an ASCII string literal. -/
def str (s : String) : GoString := s.toList.map Char.toNat

/-- The function `strings.Split(s, sep)` for a separator `sep` of one byte: the segments
of `s` between the occurrences of `sep`, always at least one segment. -/
def Split : GoString → Nat → List GoString
  | [], _ => [[]]
  | b :: rest, sep =>
    if b = sep then [] :: Split rest sep
    else
      match Split rest sep with
      | [] => [[b]]
      | l :: ls => (b :: l) :: ls

/-- The function `strings.HasPrefix`. -/
def HasPrefix (s pre : GoString) : Bool := List.isPrefixOf pre s

/-- The constant `utf8.RuneError`. -/
def RuneError : Nat := 0xFFFD

/-- A UTF-8 continuation byte (`locb <= b && b <= hicb`). -/
def isCont (b : Nat) : Bool := 0x80 ≤ b && b ≤ 0xBF

/-- The function `utf8.DecodeRuneInString`: the first rune of `s` and its width in bytes.
An invalid or incomplete encoding gives `(RuneError, 1)`, the empty string
`(RuneError, 0)`. The second byte of a three- or four-byte encoding is checked against the
range of `acceptRanges` for its leading byte. -/
def DecodeRune : GoString → Nat × Nat
  | [] => (RuneError, 0)
  | s0 :: rest =>
    if s0 < 0x80 then (s0, 1)
    else if s0 < 0xC2 then (RuneError, 1)
    else if s0 < 0xE0 then
      match rest with
      | s1 :: _ =>
        if isCont s1 then (s0 % 0x20 * 0x40 + s1 % 0x40, 2) else (RuneError, 1)
      | _ => (RuneError, 1)
    else if s0 < 0xF0 then
      match rest with
      | s1 :: s2 :: _ =>
        if (if s0 = 0xE0 then 0xA0 else 0x80) ≤ s1 && s1 ≤ (if s0 = 0xED then 0x9F else 0xBF)
            && isCont s2 then
          (s0 % 0x10 * 0x1000 + s1 % 0x40 * 0x40 + s2 % 0x40, 3)
        else (RuneError, 1)
      | _ => (RuneError, 1)
    else if s0 < 0xF5 then
      match rest with
      | s1 :: s2 :: s3 :: _ =>
        if (if s0 = 0xF0 then 0x90 else 0x80) ≤ s1 && s1 ≤ (if s0 = 0xF4 then 0x8F else 0xBF)
            && isCont s2 && isCont s3 then
          (s0 % 0x08 * 0x40000 + s1 % 0x40 * 0x1000 + s2 % 0x40 * 0x40 + s3 % 0x40, 4)
        else (RuneError, 1)
      | _ => (RuneError, 1)
    else (RuneError, 1)

/-- The index at which `utf8.DecodeLastRuneInString` starts to decode when the last byte of
`s` is not ASCII: the nearest of the three positions `end-2`, `end-3`, `end-4` that holds a
byte that can start a rune, and otherwise one position below the limit `max(0, end-4)`,
raised to 0 when negative. -/
def lastRuneStart (s : GoString) : Nat :=
  let e := s.length
  if 2 ≤ e && !isCont (s.getD (e - 2) 0) then e - 2
  else if 3 ≤ e && !isCont (s.getD (e - 3) 0) then e - 3
  else if 4 ≤ e && !isCont (s.getD (e - 4) 0) then e - 4
  else if e ≤ 4 then 0
  else e - 5

/-- The function `utf8.DecodeLastRuneInString`: the last rune of `s` and its width. -/
def DecodeLastRune (s : GoString) : Nat × Nat :=
  match s.getLast? with
  | none => (RuneError, 0)
  | some r =>
    if r < 0x80 then (r, 1)
    else
      let start := lastRuneStart s
      let d := DecodeRune (s.drop start)
      if start + d.2 ≠ s.length then (RuneError, 1) else d

/-- White space as `unicode.IsSpace` defines it; the table `space` of package `fmt`
lists the same code points. -/
def isSpace (r : Nat) : Bool :=
  (0x09 ≤ r && r ≤ 0x0D) || r = 0x20 || r = 0x85 || r = 0xA0 || r = 0x1680
    || (0x2000 ≤ r && r ≤ 0x200A) || r = 0x2028 || r = 0x2029 || r = 0x202F
    || r = 0x205F || r = 0x3000

/-- The loop of `strings.TrimLeftFunc(s, unicode.IsSpace)`: drop leading white-space
runes. Each round drops at least one byte, so fuel `len(s)` is enough. -/
def trimLeftAux : Nat → GoString → GoString
  | 0, s => s
  | _ + 1, [] => []
  | fuel + 1, b :: rest =>
    let d := DecodeRune (b :: rest)
    if isSpace d.1 then trimLeftAux fuel ((b :: rest).drop d.2) else b :: rest

/-- The function `strings.TrimLeftFunc(s, unicode.IsSpace)`. -/
def TrimLeft (s : GoString) : GoString := trimLeftAux s.length s

/-- The loop of `lastIndexFunc(s, unicode.IsSpace, false)`: the index at which the last
rune that is not white space starts, decoding backwards from the end; `none` is Go's -1. -/
def lastIndexNonSpace : Nat → GoString → Option Nat
  | 0, _ => none
  | fuel + 1, s =>
    if s = [] then none
    else
      let d := DecodeLastRune s
      let i := s.length - d.2
      if !isSpace d.1 then some i else lastIndexNonSpace fuel (s.take i)

/-- The function `strings.TrimRightFunc(s, unicode.IsSpace)`. -/
def TrimRight (s : GoString) : GoString :=
  match lastIndexNonSpace s.length s with
  | none => []
  | some i =>
    if 0x80 ≤ s.getD i 0 then s.take (i + (DecodeRune (s.drop i)).2) else s.take (i + 1)

/-- The function `strings.TrimSpace`. Its two ASCII fast paths return what
`TrimFunc(s, unicode.IsSpace)`, that is `TrimRightFunc(TrimLeftFunc(s, f), f)`, returns. -/
def TrimSpace (s : GoString) : GoString := TrimRight (TrimLeft s)

/-- The loop of `strings.FieldsFunc(s, unicode.IsSpace)`. `cur` holds the bytes of the
field that is open (`start >= 0` in Go), and is empty when none is. -/
def fieldsAux : Nat → GoString → GoString → List GoString
  | 0, _, cur => if cur = [] then [] else [cur]
  | _ + 1, [], cur => if cur = [] then [] else [cur]
  | fuel + 1, b :: rest, cur =>
    let d := DecodeRune (b :: rest)
    if isSpace d.1 then
      if cur = [] then fieldsAux fuel ((b :: rest).drop d.2) []
      else cur :: fieldsAux fuel ((b :: rest).drop d.2) []
    else fieldsAux fuel ((b :: rest).drop d.2) (cur ++ (b :: rest).take d.2)

/-- The function `strings.Fields`: the maximal runs of runes of `s` that are not white
space. Its ASCII fast path returns what `FieldsFunc(s, unicode.IsSpace)` returns. -/
def Fields (s : GoString) : List GoString := fieldsAux s.length s []

/-! ## float64 -/

/-- A `float64`. `fin m e` is the finite value `m * 2 ^ e`. -/
inductive F64 where
  | nan
  | inf (neg : Bool)
  | fin (m : Int) (e : Int)
deriving DecidableEq, Repr

namespace F64

/-- Comparison `m1 * 2 ^ e1 ≤ m2 * 2 ^ e2` of two finite values, in integer arithmetic. -/
def finLe (m1 e1 m2 e2 : Int) : Bool :=
  decide (m1 * ((2 ^ (e1 - e2).toNat : Nat) : Int) ≤ m2 * ((2 ^ (e2 - e1).toNat : Nat) : Int))

/-- Go's `a <= b` on `float64`: false as soon as one side is NaN. -/
def le : F64 → F64 → Bool
  | nan, _ => false
  | _, nan => false
  | inf true, _ => true
  | _, inf false => true
  | inf false, _ => false
  | _, inf true => false
  | fin m1 e1, fin m2 e2 => finLe m1 e1 m2 e2

/-- Go's `a >= b` on `float64`. -/
def ge (a b : F64) : Bool := le b a

/-- Go's `a < b` on `float64`. -/
def lt (a b : F64) : Bool := le a b && !le b a

/-- The predicate `math.IsNaN`. -/
def isNaN : F64 → Bool
  | nan => true
  | _ => false

/-- The float64 zero, the zero value of the type. -/
def zero : F64 := fin 0 0

end F64

/-! ### Rounding to float64 -/

/-- The loop of `bitLen`. -/
def bitLenAux : Nat → Nat → Nat
  | 0, _ => 0
  | fuel + 1, n => if n = 0 then 0 else bitLenAux fuel (n / 2) + 1

/-- The number of binary digits of `n` (`bits.Len`). -/
def bitLen (n : Nat) : Nat := bitLenAux n n

/-- The quotient `a / b` rounded to the nearest integer, a tie to the even one. -/
def divRoundEven (a b : Nat) : Nat :=
  if 2 * (a % b) < b then a / b
  else if b < 2 * (a % b) then a / b + 1
  else if a / b % 2 = 0 then a / b
  else a / b + 1

/-- Numerator and denominator of `num / den / 2 ^ e`. -/
def scale (num den : Nat) (e : Int) : Nat × Nat :=
  if 0 ≤ e then (num, den * 2 ^ e.toNat) else (num * 2 ^ (-e).toNat, den)

/-- The loop of `F64.dyadic`: halve an even mantissa. -/
def oddPartAux : Nat → Nat → Int → Nat × Int
  | 0, m, e => (m, e)
  | fuel + 1, m, e => if m ≠ 0 ∧ m % 2 = 0 then oddPartAux fuel (m / 2) (e + 1) else (m, e)

/-- The finite value `± m * 2 ^ e`, written with an odd mantissa (zero as `fin 0 0`). -/
def F64.dyadic (neg : Bool) (m : Nat) (e : Int) : F64 :=
  if m = 0 then F64.fin 0 0
  else
    let r := oddPartAux m m e
    F64.fin (if neg then -(r.1 : Int) else (r.1 : Int)) r.2

/-- The float64 with the value of a natural number below `2 ^ 53`, which needs no
rounding. -/
def F64.ofNat (n : Nat) : F64 := F64.dyadic false n 0

/-- The binary exponent `e` of the unit in the last place for the positive rational
`num / den`: the least `e ≥ -1074` with `num / den < 2 ^ (e + 53)`. -/
def ulpExp (num den : Nat) : Int :=
  let e0 : Int := (bitLen num : Int) - (bitLen den : Int) - 53
  let s := scale num den e0
  let e1 : Int := if s.1 / s.2 < 2 ^ 53 then e0 else e0 + 1
  max e1 (-1074)

/-- The float64 nearest to `± num / den` (`den > 0`), a tie to the even mantissa: IEEE 754
round-to-nearest-even with 53 bits of precision and exponents from -1074; a result of
magnitude `2 ^ 1024` or more is an infinity. -/
def roundF64 (neg : Bool) (num den : Nat) : F64 :=
  if num = 0 then F64.fin 0 0
  else
    let e := ulpExp num den
    let s := scale num den e
    let m := divRoundEven s.1 s.2
    if 971 < e ∨ (e = 971 ∧ 2 ^ 53 ≤ m) then F64.inf neg else F64.dyadic neg m e

/-! ### `strconv.ParseFloat`, `strconv.Atoi`, `math.Ldexp` -/

/-- The function `lower` of package `strconv`: `c | ('x' - 'X')`, for a byte. -/
def lower (c : Nat) : Nat := if c / 0x20 % 2 = 0 then c + 0x20 else c

/-- An ASCII decimal digit. -/
def isDigit (c : Nat) : Bool := 0x30 ≤ c && c ≤ 0x39

/-- The function `commonPrefixLenIgnoreCase(s, prefix)` of package `strconv`; `pre` is in
lower case. -/
def commonPrefixLenIgnoreCase : GoString → GoString → Nat
  | c :: s, p :: pre =>
    if (if 0x41 ≤ c ∧ c ≤ 0x5A then c + 0x20 else c) = p then
      commonPrefixLenIgnoreCase s pre + 1
    else 0
  | _, _ => 0

/-- The two `case` bodies of `special` that recognise an infinity: `s` is the string after
the `nsign` bytes of sign. -/
def specialInf (neg : Bool) (nsign : Nat) (s : GoString) : Option (F64 × Nat) :=
  let n := commonPrefixLenIgnoreCase s (str "infinity")
  let n := if 3 < n ∧ n < 8 then 3 else n
  if n = 3 ∨ n = 8 then some (F64.inf neg, nsign + n) else none

/-- The function `special` of package `strconv`: the value and the length of a leading
`NaN`, `Inf` or `Infinity` (any case, the infinities with an optional sign). -/
def special : GoString → Option (F64 × Nat)
  | [] => none
  | c :: t =>
    if c = 0x2B then specialInf false 1 t
    else if c = 0x2D then specialInf true 1 t
    else if c = 0x69 ∨ c = 0x49 then specialInf false 0 (c :: t)
    else if c = 0x6E ∨ c = 0x4E then
      if commonPrefixLenIgnoreCase (c :: t) (str "nan") = 3 then some (F64.nan, 3) else none
    else none

/-- The local variables of the digit loop of `readFloat`. The mantissa keeps every digit:
Go caps it at 19 digits and sets `trunc`, which only selects among conversion algorithms
that all return the correctly rounded value of the whole digit string. -/
structure Mant where
  sawdot : Bool
  sawdigits : Bool
  nd : Nat
  dp : Int
  mantissa : Nat
  underscores : Bool
deriving DecidableEq, Repr

/-- The digit loop of `readFloat` (label `loop`), in base 10 or 16: the state at the first
byte that is no part of the mantissa, and the bytes from there on. -/
def readMant (base : Nat) : GoString → Mant → Mant × GoString
  | [], st => (st, [])
  | c :: rest, st =>
    if c = 0x5F then readMant base rest { st with underscores := true }
    else if c = 0x2E then
      if st.sawdot then (st, c :: rest)
      else readMant base rest { st with sawdot := true, dp := st.nd }
    else if isDigit c then
      if c = 0x30 ∧ st.nd = 0 then
        readMant base rest { st with sawdigits := true, dp := st.dp - 1 }
      else
        readMant base rest
          { st with sawdigits := true, nd := st.nd + 1,
                    mantissa := st.mantissa * base + (c - 0x30) }
    else if base = 16 ∧ 0x61 ≤ lower c ∧ lower c ≤ 0x66 then
      readMant base rest
        { st with sawdigits := true, nd := st.nd + 1,
                  mantissa := st.mantissa * 16 + (lower c - 0x61 + 10) }
    else (st, c :: rest)

/-- The loop of `readFloat` over the digits of the exponent: the exponent read (no longer
accumulated once it has reached 10000), whether an underscore was seen, and the rest. -/
def readExp : GoString → Nat → Bool → Nat × Bool × GoString
  | [], e, u => (e, u, [])
  | c :: rest, e, u =>
    if c = 0x5F then readExp rest e true
    else if isDigit c then readExp rest (if e < 10000 then e * 10 + (c - 0x30) else e) u
    else (e, u, c :: rest)

/-- The string after its optional sign `+` or `-`. -/
def stripSign : GoString → GoString
  | 0x2B :: t => t
  | 0x2D :: t => t
  | s => s

/-- The loop of `underscoreOK`; `saw` is `'^'`, `'0'`, `'_'` or `'!'`. -/
def underscoreLoop (hex : Bool) : GoString → Char → Bool
  | [], saw => saw ≠ '_'
  | c :: t, saw =>
    if isDigit c || (hex && 0x61 ≤ lower c && lower c ≤ 0x66) then underscoreLoop hex t '0'
    else if c = 0x5F then
      if saw ≠ '0' then false else underscoreLoop hex t '_'
    else if saw = '_' then false
    else underscoreLoop hex t '!'

/-- The function `underscoreOK` of package `strconv`: every underscore stands between two
digits, or between a base prefix and a digit. -/
def underscoreOK (s : GoString) : Bool :=
  match stripSign s with
  | 0x30 :: c :: t =>
    if lower c = 0x62 ∨ lower c = 0x6F ∨ lower c = 0x78 then
      underscoreLoop (lower c = 0x78) t '0'
    else underscoreLoop false (stripSign s) '^'
  | _ => underscoreLoop false (stripSign s) '^'

/-- What `readFloat` returns when `ok`: the value is `± mantissa * 10 ^ exp`, or
`± mantissa * 2 ^ exp` when `hex`, and `n` bytes were consumed. -/
structure Read where
  mantissa : Nat
  exp : Int
  neg : Bool
  hex : Bool
  n : Nat
deriving DecidableEq, Repr

/-- The test of `readFloat` for the base prefix,
`i+2 < len(s) && s[i] == '0' && lower(s[i+1]) == 'x'`, on the string after the sign. -/
def hexPrefix : GoString → Bool
  | 0x30 :: c :: _ :: _ => decide (lower c = 0x78)
  | _ => false

/-- The end of `readFloat`, from `if mantissa != 0` on: `rest` is what was not consumed,
`dp` the position of the point with the exponent added. -/
def readFloatEnd (s : GoString) (neg hex : Bool) (st : Mant) (dp : Int) (underscores : Bool)
    (rest : GoString) : Option Read :=
  let n := s.length - rest.length
  let ndMant : Int := if hex then (st.nd : Int) * 4 else st.nd
  if underscores && !underscoreOK (s.take n) then none
  else some ⟨st.mantissa, if st.mantissa ≠ 0 then dp - ndMant else 0, neg, hex, n⟩

/-- The function `readFloat` of package `strconv`; `none` is `ok == false`. -/
def readFloat (s : GoString) : Option Read :=
  -- optional sign
  let neg := decide (s.head? = some 0x2D)
  let s1 := stripSign s
  -- digits
  let hex := hexPrefix s1
  let r := readMant (if hex then 16 else 10) (if hex then s1.drop 2 else s1)
    ⟨false, false, 0, 0, 0, false⟩
  if !r.1.sawdigits then none
  else
    let dp : Int := if r.1.sawdot then r.1.dp else r.1.nd
    let dp : Int := if hex then dp * 4 else dp
    match r.2 with
    | c :: rest =>
      if lower c = (if hex then 0x70 else 0x65) then
        -- optional exponent moves decimal point
        match rest with
        | [] => none
        | d :: rest1 =>
          let esign : Int := if d = 0x2D then -1 else 1
          let rest2 := if d = 0x2B ∨ d = 0x2D then rest1 else d :: rest1
          match rest2 with
          | [] => none
          | d2 :: _ =>
            if !isDigit d2 then none
            else
              let x := readExp rest2 0 r.1.underscores
              readFloatEnd s neg hex r.1 (dp + (x.1 : Int) * esign) x.2.1 x.2.2
      else if hex then none
      else readFloatEnd s neg hex r.1 dp r.1.underscores (c :: rest)
    | [] => if hex then none else readFloatEnd s neg hex r.1 dp r.1.underscores []

/-- The function `strconv.ParseFloat(s, 64)`; `none` is any error (`ErrSyntax`, or
`ErrRange` when the value rounds to an infinity). -/
def ParseFloat (s : GoString) : Option F64 :=
  match special s with
  | some (v, n) => if n = s.length then some v else none
  | none =>
    match readFloat s with
    | none => none
    | some r =>
      if r.n ≠ s.length then none
      else
        let b : Nat := if r.hex then 2 else 10
        let v :=
          if 0 ≤ r.exp then roundF64 r.neg (r.mantissa * b ^ r.exp.toNat) 1
          else roundF64 r.neg r.mantissa (b ^ (-r.exp).toNat)
        match v with
        | F64.inf _ => none
        | _ => some v

/-- The value of a string of decimal digits. -/
def digitsValue (ds : GoString) : Nat := ds.foldl (fun n c => n * 10 + (c - 0x30)) 0

/-- The function `strconv.Atoi` where `int` has 64 bits: an optional sign and decimal
digits, within the range of `int`; `none` is any error. -/
def Atoi (s : GoString) : Option Int :=
  let neg := s.head? = some 0x2D
  let ds := stripSign s
  if ds = [] ∨ !ds.all isDigit then none
  else
    let v : Int := if neg then -(digitsValue ds : Int) else digitsValue ds
    if -(2 ^ 63 : Int) ≤ v ∧ v ≤ 2 ^ 63 - 1 then some v else none

/-- The sum of two `int` as the machine computes it, modulo `2 ^ 64`. -/
def wrap64 (x : Int) : Int := (x + 2 ^ 63) % 2 ^ 64 - 2 ^ 63

/-- The function `math.Ldexp(frac, exp)`: `frac * 2 ^ exp`, rounded. The binary exponent of
the result is an `int` sum; below -1075 the result is zero and above 1023 an infinity. -/
def Ldexp (frac : F64) (exp : Int) : F64 :=
  match frac with
  | F64.fin m e =>
    if m = 0 then frac
    else
      let k : Int := bitLen m.natAbs - 1
      let x := wrap64 (exp + (e + k))
      if x < -1075 then F64.fin 0 0
      else if 1023 < x then F64.inf (decide (m < 0))
      else
        let s := scale m.natAbs 1 (k - x)
        roundF64 (decide (m < 0)) s.1 s.2
  | _ => frac

/-! ### `fmt.Sscanf(str, "%f", &f)` -/

/-- The scanner `ss`, as far as the verb `%f` uses it: the token buffer `buf` and the
input not yet read. -/
structure Scan where
  buf : GoString
  input : GoString
deriving DecidableEq, Repr

/-- The method `ss.accept(ok)`: when the next rune is one of the ASCII characters `ok`,
append it to `buf` and report true; otherwise leave it unread. A byte that is not ASCII
starts a rune that is no element of `ok`. -/
def accept (ok : GoString) (s : Scan) : Bool × Scan :=
  match s.input with
  | [] => (false, s)
  | r :: rest => if ok.contains r then (true, ⟨s.buf ++ [r], rest⟩) else (false, s)

/-- A chain `s.accept(a) && s.accept(b) && ...`. -/
def acceptSeq : List GoString → Scan → Bool × Scan
  | [], s => (true, s)
  | ok :: oks, s =>
    match accept ok s with
    | (true, s1) => acceptSeq oks s1
    | (false, s1) => (false, s1)

/-- The loop `for s.accept(ok) {}`. -/
def acceptAll (ok : GoString) (s : Scan) : Scan :=
  ⟨s.buf ++ s.input.takeWhile ok.contains, s.input.dropWhile ok.contains⟩

/-- The constant `decimalDigits + "_"`. -/
def decimalDigits_ : GoString := str "0123456789_"

/-- The constant `hexadecimalDigits + "_"`. -/
def hexadecimalDigits_ : GoString := str "0123456789aAbBcCdDeEfF_"

/-- The second half of `ss.floatToken`, from the comment `digits?` on: digits, a point
with fraction digits, an exponent. `hex` tells whether the prefix `0x` was read. -/
def scanNumber (hex : Bool) (s : Scan) : Scan :=
  let digits := if hex then hexadecimalDigits_ else decimalDigits_
  let exp := if hex then str "pP" else str "eEpP"
  -- digits?
  let s := acceptAll digits s
  -- decimal point?
  let d := accept (str ".") s
  -- fraction?
  let s := if d.1 then acceptAll digits d.2 else d.2
  -- exponent?
  let e := accept exp s
  if e.1 then acceptAll decimalDigits_ (accept (str "+-") e.2).2 else e.2

/-- The method `ss.floatToken`: the token read from the start of `input`, and the input
left unread. -/
def floatToken (input : GoString) : GoString × GoString :=
  -- NaN?
  let a := acceptSeq [str "nN", str "aA", str "nN"] ⟨[], input⟩
  if a.1 then (a.2.buf, a.2.input)
  else
    -- leading sign?
    let s := (accept (str "+-") a.2).2
    -- Inf?
    let b := acceptSeq [str "iI", str "nN", str "fF"] s
    if b.1 then (b.2.buf, b.2.input)
    else
      let h := acceptSeq [str "0", str "xX"] b.2
      let s := scanNumber h.1 h.2
      (s.buf, s.input)

/-- The method `ss.convertFloat(str, 64)`; `none` is a call of `s.error`. A token with a
`p` and no `x` is a decimal mantissa with a binary exponent. -/
def convertFloat (s : GoString) : Option F64 :=
  if s.contains 0x70 && !(s.contains 0x78 || s.contains 0x58) then
    let p := s.indexOf 0x70
    match ParseFloat (s.take p), Atoi (s.drop (p + 1)) with
    | some f, some m => some (Ldexp f m)
    | _, _ => none
  else ParseFloat s

/-- The loop of `ss.SkipSpace` when a newline is no space (`nlIsSpace` is false for
`Sscanf`): the input from the first rune that is not white space; `none` is the error
`unexpected newline`. -/
def skipSpaceAux : Nat → GoString → Option GoString
  | 0, s => some s
  | _ + 1, [] => some []
  | fuel + 1, b :: rest =>
    let d := DecodeRune (b :: rest)
    let tl := (b :: rest).drop d.2
    if d.1 = 0x0D ∧ tl.head? = some 0x0A then skipSpaceAux fuel tl
    else if d.1 = 0x0A then none
    else if !isSpace d.1 then some (b :: rest)
    else skipSpaceAux fuel tl

/-- The method `ss.SkipSpace`. -/
def SkipSpace (s : GoString) : Option GoString := skipSpaceAux s.length s

/-- The call `fmt.Sscanf(str, "%f", &f)`: the value stored in `f`, or `none` when `err` is
not nil. `doScanf` skips white space and calls `scanOne`, which skips white space, fails
at the end of the input, and converts the token `floatToken` reads; what follows the
token is not looked at. The width limit of `2 ^ 30` runes is not modelled. -/
def Sscanf (s : GoString) : Option F64 :=
  match SkipSpace s with
  | none => none
  | some s1 =>
    match SkipSpace s1 with
    | none => none
    | some s2 => if s2 = [] then none else convertFloat (floatToken s2).1

/-! ## Data model -/

/-- The type `MachineStatus` with its three constants. -/
inductive MachineStatus where
  | Off
  | Running
  | Malfunctioning
deriving DecidableEq, Repr

/-- The string value of a `MachineStatus` constant. -/
def MachineStatus.text : MachineStatus → String
  | .Off => "off"
  | .Running => "running"
  | .Malfunctioning => "malfunctioning"

/-- The struct `SensorData`. -/
structure SensorData where
  Vibration : Bool
  Amperage : F64
deriving DecidableEq, Repr

/-- The globals `runningMin` and `malfMin`. -/
structure Thresholds where
  runningMin : F64
  malfMin : F64
deriving DecidableEq, Repr

/-- The function `determineStatus`. -/
def determineStatus (th : Thresholds) (amperage : F64) : MachineStatus :=
  if F64.ge amperage th.malfMin then MachineStatus.Malfunctioning
  else if F64.ge amperage th.runningMin then MachineStatus.Running
  else MachineStatus.Off

/-- The struct `Data`, the response of `serveData` before it is encoded. -/
structure Data where
  Amperage : F64
  Vibration : Bool
  Status : MachineStatus
  Timestamp : String
deriving DecidableEq, Repr

/-- What the ingestion path writes with `log.Printf`. -/
inductive Diagnostic where
  /-- `Error leyendo puerto serial` -/
  | readError
  /-- `Línea malformada`, with the line -/
  | malformed (line : GoString)
  /-- `Valor de vibración inválido`, with `fields[0]` -/
  | invalidVibration (field : GoString)
  /-- `Amperaje inválido`, with `fields[1]` -/
  | invalidAmperage (field : GoString)
deriving DecidableEq, Repr

/-- The mutable state of the ingestion path: the local `buffer` of `readSerialData`, the
global `currentData`, and the diagnostics logged so far. -/
structure State where
  buffer : GoString
  currentData : SensorData
  log : List Diagnostic
deriving DecidableEq, Repr

/-- The state when `readSerialData` enters its loop: `buffer` and `currentData` hold the
zero values of their types. -/
def State.init : State := ⟨[], ⟨false, F64.zero⟩, []⟩

/-! ## The ingestion path -/

/-- The function `processLine`. -/
def processLine (line : GoString) (st : State) : State :=
  if HasPrefix line (str "#") || line.isEmpty then st
  else
    let fields := Fields line
    if fields.length ≠ 2 then { st with log := st.log ++ [Diagnostic.malformed line] }
    else
      let vibration : Option Bool :=
        if fields.getD 0 [] = str "Y" then some true
        else if fields.getD 0 [] = str "N" then some false
        else none
      match vibration with
      | none => { st with log := st.log ++ [Diagnostic.invalidVibration (fields.getD 0 [])] }
      | some vibration =>
        match Sscanf (fields.getD 1 []) with
        | none => { st with log := st.log ++ [Diagnostic.invalidAmperage (fields.getD 1 [])] }
        | some amperage => { st with currentData := ⟨vibration, amperage⟩ }

/-- The framing step of `readSerialData` (`buffer += chunk`, `strings.Split`, and the new
`buffer`): the lines `lines[:len(lines)-1]` handed on, and `lines[len(lines)-1]`. -/
def frameStep (buffer chunk : GoString) : List GoString × GoString :=
  let lines := Split (buffer ++ chunk) 0x0A
  (lines.dropLast, lines.getLastD [])

/-- The result of one call `port.Read(buf)`: an error, or the bytes `buf[:n]`. -/
inductive ReadResult where
  | error
  | data (chunk : GoString)
deriving DecidableEq, Repr

/-- One round of the loop of `readSerialData`. -/
def loopStep (st : State) : ReadResult → State
  | ReadResult.error => { st with log := st.log ++ [Diagnostic.readError] }
  | ReadResult.data chunk =>
    let f := frameStep st.buffer chunk
    f.1.foldl (fun s line => processLine (TrimSpace line) s) { st with buffer := f.2 }

/-- The loop of `readSerialData` over the results of successive reads. -/
def readSerialData (st : State) (reads : List ReadResult) : State :=
  reads.foldl loopStep st

/-- The framing steps of successive chunks alone: every line handed on, in order, and the
last `buffer`. -/
def frameChunks : GoString → List GoString → List GoString × GoString
  | buffer, [] => ([], buffer)
  | buffer, chunk :: chunks =>
    let f := frameStep buffer chunk
    let r := frameChunks f.2 chunks
    (f.1 ++ r.1, r.2)

/-! ## The query responder -/

/-- The call `json.NewEncoder(w).Encode(response)`: the object written to the client, or
`none` when nothing is written. Package `encoding/json` refuses a `float64` that is NaN or
an infinity (`UnsupportedValueError`), and `Encode` then writes nothing. -/
def Encode (response : Data) : Option Data :=
  match response.Amperage with
  | F64.fin _ _ => some response
  | _ => none

/-- The function `serveData`: the body of the response. `now` is
`time.Now().Format("15:04:05")`. -/
def serveData (th : Thresholds) (st : State) (now : String) : Option Data :=
  let sensorData := st.currentData
  let response : Data :=
    { Amperage := sensorData.Amperage
      Vibration := sensorData.Vibration
      Status := determineStatus th sensorData.Amperage
      Timestamp := now }
  Encode response

/-! ## Definitions used to state the properties -/

/-- The rational value of the finite float64 `fin m e`. -/
def F64.finVal (m e : Int) : ℚ := (m : ℚ) * (2 : ℚ) ^ e

/-- The place of a float64 that is not NaN in the order of the extended rationals. -/
def F64.key : F64 → WithBot (WithTop ℚ)
  | F64.nan => ⊥
  | F64.inf true => ⊥
  | F64.inf false => ((⊤ : WithTop ℚ) : WithBot (WithTop ℚ))
  | F64.fin m e => ((F64.finVal m e : WithTop ℚ) : WithBot (WithTop ℚ))

/-- The zero value of `SensorData`, which `currentData` holds until a reading is stored. -/
def SensorData.zero : SensorData := ⟨false, F64.zero⟩

/-- The pair of `frameStep` for a text `s` and a separator byte: the segments that a
separator ends, and the segment after the last separator. -/
def frameOf (s : GoString) (sep : Nat) : List GoString × GoString :=
  ((Split s sep).dropLast, (Split s sep).getLastD [])

/-- The complete records of a stream: the segments that a line terminator ends. -/
def completeRecords (stream : GoString) : List GoString := (Split stream 0x0A).dropLast

/-- The lines a framing step hands on, trimmed and processed in order (the `for ... range`
loop at the end of a round of `readSerialData`). -/
def processLines (lines : List GoString) (st : State) : State :=
  lines.foldl (fun s line => processLine (TrimSpace line) s) st

/-- The reading parser as section 4.2 of the specification words it: trim the record,
skip it when empty or a comment, split it into exactly two tokens, read the vibration flag
from the first and the amperage from the second. `none` is a record that is skipped or
rejected. The amperage is read as the program reads it, with `Sscanf`. -/
def parseRecord (record : GoString) : Option SensorData :=
  let line := TrimSpace record
  if line = [] ∨ HasPrefix line (str "#") = true then none
  else
    match Fields line with
    | [t1, t2] =>
      if t1 = str "Y" then (Sscanf t2).map fun a => ⟨true, a⟩
      else if t1 = str "N" then (Sscanf t2).map fun a => ⟨false, a⟩
      else none
    | _ => none

/-- The reading of the last record of a list that `parseRecord` accepts. -/
def lastValid (records : List GoString) : Option SensorData :=
  (records.filterMap parseRecord).getLast?

/-- A decimal number in plain notation: an optional sign, integer digits and, after an
optional point, fraction digits. -/
structure Decimal where
  sign : GoString
  int : GoString
  point : Bool
  frac : GoString
deriving DecidableEq, Repr

/-- The sign is empty, `+` or `-`; the digits are decimal digits, at least one in all;
fraction digits only follow a point. -/
def Decimal.wellFormed (d : Decimal) : Bool :=
  (d.sign = [] || d.sign = str "+" || d.sign = str "-")
    && d.int.all isDigit && d.frac.all isDigit
    && (d.point || d.frac.isEmpty) && !(d.int ++ d.frac).isEmpty

/-- The point and the fraction digits of a decimal number. -/
def pointPart (point : Bool) (frac : GoString) : GoString :=
  if point then 0x2E :: frac else []

/-- The text of a decimal number. -/
def Decimal.text (d : Decimal) : GoString :=
  d.sign ++ (d.int ++ pointPart d.point d.frac)

/-- The value of a string of decimal digits, the first digit the most significant. -/
def digitsNat (ds : GoString) : ℕ := Nat.ofDigits 10 ((ds.map fun c => c - 0x30).reverse)

/-- The rational value of a decimal number: the integer digits, plus the fraction digits
over the power of ten of their count, with the sign. -/
def Decimal.toRat (d : Decimal) : ℚ :=
  (if d.sign = str "-" then -1 else 1) *
    ((digitsNat d.int : ℚ) + (digitsNat d.frac : ℚ) / 10 ^ d.frac.length)

/-- The decimal number 1 followed by 309 zeros, of value `10 ^ 309`. -/
def bigDecimal : Decimal := ⟨[], 0x31 :: List.replicate 309 0x30, false, []⟩

/-- A rational that a finite float64 holds: `m * 2 ^ e` with a significand `m` of at most
53 bits and an exponent from -1074 to 971. -/
def IsFloat64 (x : ℚ) : Prop :=
  ∃ m e : ℤ, |m| < 2 ^ 53 ∧ -1074 ≤ e ∧ e ≤ 971 ∧ x = m * 2 ^ e

/-- A float64 value whose significand is even: in the form with a full 53-bit significand,
or with the least exponent -1074, the significand is an even integer. -/
def IsEvenFloat64 (x : ℚ) : Prop :=
  ∃ m e : ℤ, Even m ∧ |m| < 2 ^ 53 ∧ -1074 ≤ e ∧ e ≤ 971 ∧ (2 ^ 52 ≤ |m| ∨ e = -1074) ∧
    x = m * 2 ^ e

/-- The float64 value `x` is nearest to the rational `q`, a tie going to the even
significand (IEEE 754 round-to-nearest-even): no float64 value is nearer to `q`, and when
another is as near, the significand of `x` is even. -/
def IsNearestFloat64 (q x : ℚ) : Prop :=
  IsFloat64 x ∧ ∀ w, IsFloat64 w →
    |q - x| ≤ |q - w| ∧ (|q - x| = |q - w| → w = x ∨ IsEvenFloat64 x)

/-- The least magnitude that is too large for a float64: halfway between the largest
float64, `2 ^ 1024 - 2 ^ 971`, and `2 ^ 1024`. -/
def overflowBound : ℚ := 2 ^ 1024 - 2 ^ 970

/-- A byte of the digits and the point of a decimal number. -/
def isBody (c : Nat) : Bool := isDigit c || c == 0x2E

/-! ## The fuel of the loops -/

/-- The width `DecodeRune` returns for a string that is not empty is from 1 to 4. -/
theorem DecodeRune_width (b : Nat) (rest : GoString) :
    1 ≤ (DecodeRune (b :: rest)).2 ∧ (DecodeRune (b :: rest)).2 ≤ 4 := by
  unfold DecodeRune
  repeat' split
  all_goals simp_all

/-- More fuel than the length of the string does not change `trimLeftAux`. -/
theorem trimLeftAux_fuel (n m : Nat) (s : GoString) (hn : s.length ≤ n) (hm : s.length ≤ m) :
    trimLeftAux n s = trimLeftAux m s := by
  induction n generalizing m s with
  | zero =>
    have : s = [] := List.length_eq_zero.mp (Nat.le_zero.mp hn)
    subst this
    cases m <;> rfl
  | succ n ih =>
    cases s with
    | nil => cases m <;> rfl
    | cons b rest =>
      cases m with
      | zero => simp at hm
      | succ m =>
        have hw := (DecodeRune_width b rest).1
        simp only [trimLeftAux]
        split
        · apply ih
          · simp only [List.length_drop, List.length_cons] at hn ⊢; omega
          · simp only [List.length_drop, List.length_cons] at hm ⊢; omega
        · rfl

/-- More fuel than the length of the string does not change `fieldsAux`. -/
theorem fieldsAux_fuel (n m : Nat) (s cur : GoString) (hn : s.length ≤ n)
    (hm : s.length ≤ m) : fieldsAux n s cur = fieldsAux m s cur := by
  induction n generalizing m s cur with
  | zero =>
    have : s = [] := List.length_eq_zero.mp (Nat.le_zero.mp hn)
    subst this
    cases m <;> rfl
  | succ n ih =>
    cases s with
    | nil => cases m <;> rfl
    | cons b rest =>
      cases m with
      | zero => simp at hm
      | succ m =>
        have hw := (DecodeRune_width b rest).1
        have h1 : ((b :: rest).drop (DecodeRune (b :: rest)).2).length ≤ n := by
          simp only [List.length_drop, List.length_cons] at hn ⊢; omega
        have h2 : ((b :: rest).drop (DecodeRune (b :: rest)).2).length ≤ m := by
          simp only [List.length_drop, List.length_cons] at hm ⊢; omega
        simp only [fieldsAux]
        rw [ih m _ [] h1 h2, ih m _ (cur ++ _) h1 h2]

/-- More fuel than the length of the string does not change `skipSpaceAux`. -/
theorem skipSpaceAux_fuel (n m : Nat) (s : GoString) (hn : s.length ≤ n) (hm : s.length ≤ m) :
    skipSpaceAux n s = skipSpaceAux m s := by
  induction n generalizing m s with
  | zero =>
    have : s = [] := List.length_eq_zero.mp (Nat.le_zero.mp hn)
    subst this
    cases m <;> rfl
  | succ n ih =>
    cases s with
    | nil => cases m <;> rfl
    | cons b rest =>
      cases m with
      | zero => simp at hm
      | succ m =>
        have hw := (DecodeRune_width b rest).1
        have h1 : ((b :: rest).drop (DecodeRune (b :: rest)).2).length ≤ n := by
          simp only [List.length_drop, List.length_cons] at hn ⊢; omega
        have h2 : ((b :: rest).drop (DecodeRune (b :: rest)).2).length ≤ m := by
          simp only [List.length_drop, List.length_cons] at hm ⊢; omega
        simp only [skipSpaceAux]
        rw [ih m _ h1 h2]

/-- The index at which the last rune is decoded lies within the string. -/
theorem lastRuneStart_lt (s : GoString) (hs : s ≠ []) : lastRuneStart s < s.length := by
  have : 0 < s.length := List.length_pos.mpr hs
  unfold lastRuneStart
  simp only
  split_ifs <;> omega

/-- The width `DecodeLastRune` returns for a string that is not empty is at least 1. -/
theorem DecodeLastRune_width (s : GoString) (hs : s ≠ []) : 1 ≤ (DecodeLastRune s).2 := by
  unfold DecodeLastRune
  cases hl : s.getLast? with
  | none => simp [List.getLast?_eq_none_iff] at hl; exact absurd hl hs
  | some r =>
    simp only
    split_ifs with h1 h2
    · exact le_refl _
    · simp
    · have := lastRuneStart_lt s hs
      push_neg at h2
      omega

/-- More fuel than the length of the string does not change `lastIndexNonSpace`. -/
theorem lastIndexNonSpace_fuel (n m : Nat) (s : GoString) (hn : s.length ≤ n)
    (hm : s.length ≤ m) : lastIndexNonSpace n s = lastIndexNonSpace m s := by
  induction n generalizing m s with
  | zero =>
    have : s = [] := List.length_eq_zero.mp (Nat.le_zero.mp hn)
    subst this
    cases m <;> rfl
  | succ n ih =>
    by_cases hs : s = []
    · subst hs
      cases m <;> rfl
    · cases m with
      | zero => exact absurd (List.length_eq_zero.mp (Nat.le_zero.mp hm)) hs
      | succ m =>
        have hw := DecodeLastRune_width s hs
        have hpos : 0 < s.length := List.length_pos.mpr hs
        have h1 : (s.take (s.length - (DecodeLastRune s).2)).length ≤ n := by
          simp only [List.length_take]; omega
        have h2 : (s.take (s.length - (DecodeLastRune s).2)).length ≤ m := by
          simp only [List.length_take]; omega
        simp only [lastIndexNonSpace, hs, if_false]
        rw [ih m _ h1 h2]

/-- More fuel than `n` does not change `bitLenAux` at `n`. -/
theorem bitLenAux_fuel (k l n : Nat) (hk : n ≤ k) (hl : n ≤ l) :
    bitLenAux k n = bitLenAux l n := by
  induction k generalizing l n with
  | zero =>
    have : n = 0 := Nat.le_zero.mp hk
    subst this
    cases l <;> simp [bitLenAux]
  | succ k ih =>
    cases l with
    | zero =>
      have : n = 0 := Nat.le_zero.mp hl
      subst this
      simp [bitLenAux]
    | succ l =>
      simp only [bitLenAux]
      split
      · rfl
      · rw [ih l (n / 2) (by omega) (by omega)]

/-- More fuel than `m` does not change `oddPartAux` at `m`. -/
theorem oddPartAux_fuel (k l m : Nat) (e : Int) (hk : m ≤ k) (hl : m ≤ l) :
    oddPartAux k m e = oddPartAux l m e := by
  induction k generalizing l m e with
  | zero =>
    have : m = 0 := Nat.le_zero.mp hk
    subst this
    cases l <;> simp [oddPartAux]
  | succ k ih =>
    cases l with
    | zero =>
      have : m = 0 := Nat.le_zero.mp hl
      subst this
      simp [oddPartAux]
    | succ l =>
      simp only [oddPartAux]
      split
      · rw [ih l (m / 2) (e + 1) (by omega) (by omega)]
      · rfl

/-- The functions with a fuel argument have fuel enough: more fuel than the length of the
string (for `bitLen` and `F64.dyadic`, than the number) gives the same result. -/
theorem fuel_suffices (n : Nat) (s cur : GoString) (k : Nat) (e : Int)
    (hn : s.length ≤ n) (hk : k ≤ n) :
    trimLeftAux n s = TrimLeft s ∧
    lastIndexNonSpace n s = lastIndexNonSpace s.length s ∧
    fieldsAux n s cur = fieldsAux s.length s cur ∧
    skipSpaceAux n s = SkipSpace s ∧
    bitLenAux n k = bitLen k ∧
    oddPartAux n k e = oddPartAux k k e :=
  ⟨trimLeftAux_fuel _ _ _ hn (le_refl _), lastIndexNonSpace_fuel _ _ _ hn (le_refl _),
    fieldsAux_fuel _ _ _ _ hn (le_refl _), skipSpaceAux_fuel _ _ _ hn (le_refl _),
    bitLenAux_fuel _ _ _ hk (le_refl _), oddPartAux_fuel _ _ _ _ hk (le_refl _)⟩

/-! ## The order of float64 and `determineStatus` -/

/-- The integer comparison `finLe` is the order of the rational values. -/
theorem F64.finLe_iff (m1 e1 m2 e2 : Int) :
    F64.finLe m1 e1 m2 e2 = true ↔ F64.finVal m1 e1 ≤ F64.finVal m2 e2 := by
  unfold F64.finLe F64.finVal
  rw [decide_eq_true_iff]
  have h2 : (0 : ℚ) < 2 := by norm_num
  rcases le_total e2 e1 with h | h
  · have ht1 : ((e1 - e2).toNat : Int) = e1 - e2 := Int.toNat_of_nonneg (by omega)
    have ht2 : (e2 - e1).toNat = 0 := Int.toNat_eq_zero.mpr (by omega)
    rw [ht2, pow_zero, Nat.cast_one, mul_one]
    have he : (2 : ℚ) ^ e1 = (2 : ℚ) ^ (e1 - e2).toNat * (2 : ℚ) ^ e2 := by
      rw [← zpow_natCast, ht1, ← zpow_add₀ (by norm_num : (2 : ℚ) ≠ 0)]
      congr 1; ring
    rw [he, ← mul_assoc]
    rw [mul_le_mul_right (zpow_pos h2 e2)]
    rw [← Int.cast_le (R := ℚ)]
    push_cast
    rfl
  · have ht1 : ((e2 - e1).toNat : Int) = e2 - e1 := Int.toNat_of_nonneg (by omega)
    have ht2 : (e1 - e2).toNat = 0 := Int.toNat_eq_zero.mpr (by omega)
    rw [ht2, pow_zero, Nat.cast_one, mul_one]
    have he : (2 : ℚ) ^ e2 = (2 : ℚ) ^ (e2 - e1).toNat * (2 : ℚ) ^ e1 := by
      rw [← zpow_natCast, ht1, ← zpow_add₀ (by norm_num : (2 : ℚ) ≠ 0)]
      congr 1; ring
    rw [he, ← mul_assoc]
    rw [mul_le_mul_right (zpow_pos h2 e1)]
    rw [← Int.cast_le (R := ℚ)]
    push_cast
    rfl

/-- Go's `<=` holds exactly between two values that are not NaN and are in order. -/
theorem F64.le_iff (a b : F64) :
    F64.le a b = true ↔ a.isNaN = false ∧ b.isNaN = false ∧ a.key ≤ b.key := by
  cases a with
  | nan => simp [F64.le, F64.isNaN]
  | inf s =>
    cases b with
    | nan => cases s <;> simp [F64.le, F64.isNaN]
    | inf t => cases s <;> cases t <;> simp [F64.le, F64.isNaN, F64.key]
    | fin m e => cases s <;> simp [F64.le, F64.isNaN, F64.key]
  | fin m e =>
    cases b with
    | nan => simp [F64.le, F64.isNaN]
    | inf t => cases t <;> simp [F64.le, F64.isNaN, F64.key]
    | fin m2 e2 => simp [F64.le, F64.isNaN, F64.key, F64.finLe_iff]

/-- Go's `<` holds exactly between two values that are not NaN and are strictly in order. -/
theorem F64.lt_iff (a b : F64) :
    F64.lt a b = true ↔ a.isNaN = false ∧ b.isNaN = false ∧ a.key < b.key := by
  unfold F64.lt
  rw [Bool.and_eq_true, Bool.not_eq_true', ← Bool.not_eq_true, F64.le_iff, F64.le_iff]
  constructor
  · rintro ⟨⟨ha, hb, hab⟩, hn⟩
    refine ⟨ha, hb, lt_of_not_le fun hba => hn ⟨hb, ha, hba⟩⟩
  · rintro ⟨ha, hb, hab⟩
    exact ⟨⟨ha, hb, hab.le⟩, fun h => absurd h.2.2 (not_le.mpr hab)⟩

/-- Go's `>=` holds exactly between two values that are not NaN and are in order. -/
theorem F64.ge_iff (a b : F64) :
    F64.ge a b = true ↔ a.isNaN = false ∧ b.isNaN = false ∧ b.key ≤ a.key := by
  unfold F64.ge
  rw [F64.le_iff]
  tauto

/-- The three states of `determineStatus` for thresholds with `runningMin < malfMin`. -/
theorem determineStatus_cases (th : Thresholds)
    (h : F64.lt th.runningMin th.malfMin = true) (a : F64) :
    (determineStatus th a = MachineStatus.Malfunctioning ↔ F64.ge a th.malfMin = true) ∧
    (determineStatus th a = MachineStatus.Running ↔
      F64.le th.runningMin a = true ∧ F64.lt a th.malfMin = true) ∧
    (determineStatus th a = MachineStatus.Off ↔
      F64.lt a th.runningMin = true ∨ a.isNaN = true) ∧
    determineStatus th th.malfMin = MachineStatus.Malfunctioning ∧
    determineStatus th th.runningMin = MachineStatus.Running := by
  obtain ⟨hr, hm, hlt⟩ := (F64.lt_iff _ _).mp h
  have hmm : F64.ge th.malfMin th.malfMin = true := (F64.ge_iff _ _).mpr ⟨hm, hm, le_refl _⟩
  have hrr : F64.ge th.runningMin th.runningMin = true :=
    (F64.ge_iff _ _).mpr ⟨hr, hr, le_refl _⟩
  have hrm : ¬ F64.ge th.runningMin th.malfMin = true := fun hge =>
    absurd ((F64.ge_iff _ _).mp hge).2.2 (not_le.mpr hlt)
  refine ⟨?_, ?_, ?_, ?_, ?_⟩
  · unfold determineStatus
    by_cases h1 : F64.ge a th.malfMin = true
    · simp [h1]
    · by_cases h2 : F64.ge a th.runningMin = true <;> simp [h1, h2]
  · unfold determineStatus
    by_cases h1 : F64.ge a th.malfMin = true
    · have : ¬ F64.lt a th.malfMin = true := fun hl =>
        absurd ((F64.ge_iff _ _).mp h1).2.2 (not_le.mpr ((F64.lt_iff _ _).mp hl).2.2)
      simp [h1, this]
    · by_cases h2 : F64.ge a th.runningMin = true
      · have ha : a.isNaN = false := ((F64.ge_iff _ _).mp h2).1
        have hl : F64.lt a th.malfMin = true :=
          (F64.lt_iff _ _).mpr ⟨ha, hm, lt_of_not_le fun hle => h1 ((F64.ge_iff _ _).mpr ⟨ha, hm, hle⟩)⟩
        have h2' : F64.le th.runningMin a = true := h2
        simp [h1, h2, h2', hl]
      · have h2' : ¬ F64.le th.runningMin a = true := h2
        simp [h1, h2, h2']
  · unfold determineStatus
    by_cases h1 : F64.ge a th.malfMin = true
    · have ha : a.isNaN = false := ((F64.ge_iff _ _).mp h1).1
      have : ¬ F64.lt a th.runningMin = true := fun hl =>
        absurd (lt_trans ((F64.lt_iff _ _).mp hl).2.2 hlt) (not_lt.mpr ((F64.ge_iff _ _).mp h1).2.2)
      simp [h1, ha, this]
    · by_cases h2 : F64.ge a th.runningMin = true
      · have ha : a.isNaN = false := ((F64.ge_iff _ _).mp h2).1
        have : ¬ F64.lt a th.runningMin = true := fun hl =>
          absurd ((F64.lt_iff _ _).mp hl).2.2 (not_lt.mpr ((F64.ge_iff _ _).mp h2).2.2)
        simp [h1, h2, ha, this]
      · by_cases ha : a.isNaN = true
        · simp [h1, h2, ha]
        · have ha' : a.isNaN = false := by simpa using ha
          have hl : F64.lt a th.runningMin = true :=
            (F64.lt_iff _ _).mpr ⟨ha', hr, lt_of_not_le fun hle => h2 ((F64.ge_iff _ _).mpr ⟨ha', hr, hle⟩)⟩
          simp [h1, h2, hl]
  · simp [determineStatus, hmm]
  · simp [determineStatus, hrr, hrm]

/-- C1 (as amended): for thresholds with `runningMin < malfMin` and every amperage `a`,
`determineStatus a` is `Malfunctioning` exactly when `a >= malfMin`, `Running` exactly when
`runningMin <= a < malfMin`, and `Off` exactly when `a < runningMin` or `a` is NaN; at
`malfMin` it is `Malfunctioning` and at `runningMin` it is `Running`. -/
theorem determineStatus_spec (th : Thresholds)
    (h : F64.lt th.runningMin th.malfMin = true) (a : F64) :
    (determineStatus th a = MachineStatus.Malfunctioning ↔ F64.ge a th.malfMin = true) ∧
    (determineStatus th a = MachineStatus.Running ↔
      F64.le th.runningMin a = true ∧ F64.lt a th.malfMin = true) ∧
    (determineStatus th a = MachineStatus.Off ↔
      F64.lt a th.runningMin = true ∨ a.isNaN = true) ∧
    determineStatus th th.malfMin = MachineStatus.Malfunctioning ∧
    determineStatus th th.runningMin = MachineStatus.Running :=
  determineStatus_cases th h a

/-- C1, with thresholds 5 and 20: the amperages 12.5 and 2, and NaN. -/
theorem determineStatus_spec_witness :
    F64.lt (F64.ofNat 5) (F64.ofNat 20) = true ∧
    determineStatus ⟨F64.ofNat 5, F64.ofNat 20⟩ (F64.fin 25 (-1)) = MachineStatus.Running ∧
    determineStatus ⟨F64.ofNat 5, F64.ofNat 20⟩ (F64.ofNat 2) = MachineStatus.Off ∧
    determineStatus ⟨F64.ofNat 5, F64.ofNat 20⟩ F64.nan = MachineStatus.Off :=
  ⟨by decide,
    (determineStatus_spec ⟨F64.ofNat 5, F64.ofNat 20⟩ (by decide) (F64.fin 25 (-1))).2.1.mpr
      (by decide),
    (determineStatus_spec ⟨F64.ofNat 5, F64.ofNat 20⟩ (by decide) (F64.ofNat 2)).2.2.1.mpr
      (Or.inl (by decide)),
    (determineStatus_spec ⟨F64.ofNat 5, F64.ofNat 20⟩ (by decide) F64.nan).2.2.1.mpr
      (Or.inr rfl)⟩

/-- C1, as stated, fails at NaN: with thresholds 5 and 20 the status of a NaN amperage is
`Off`, and NaN is not below `runningMin`. -/
theorem determineStatus_nan_counterexample :
    F64.lt (F64.ofNat 5) (F64.ofNat 20) = true ∧
    determineStatus ⟨F64.ofNat 5, F64.ofNat 20⟩ F64.nan = MachineStatus.Off ∧
    ¬ F64.lt F64.nan (F64.ofNat 5) = true := by
  decide

/-- C7 (as amended): as long as `currentData` holds its zero value, `serveData` returns
amperage 0 and vibration false with the status `determineStatus` gives to 0, which for
thresholds with `runningMin < malfMin` is `Off` exactly when `0 < runningMin`, `Running`
exactly when `runningMin <= 0 < malfMin` and `Malfunctioning` exactly when
`malfMin <= 0`. -/
theorem serveData_zero (th : Thresholds) (st : State) (now : String)
    (h : F64.lt th.runningMin th.malfMin = true) (hst : st.currentData = SensorData.zero) :
    serveData th st now = some ⟨F64.zero, false, determineStatus th F64.zero, now⟩ ∧
    (determineStatus th F64.zero = MachineStatus.Off ↔
      F64.lt F64.zero th.runningMin = true) ∧
    (determineStatus th F64.zero = MachineStatus.Running ↔
      F64.le th.runningMin F64.zero = true ∧ F64.lt F64.zero th.malfMin = true) ∧
    (determineStatus th F64.zero = MachineStatus.Malfunctioning ↔
      F64.le th.malfMin F64.zero = true) := by
  have hc := determineStatus_cases th h F64.zero
  refine ⟨?_, ?_, hc.2.1, hc.1⟩
  · simp [serveData, hst, SensorData.zero, Encode, F64.zero]
  · simpa [F64.isNaN, F64.zero] using hc.2.2.1

/-- C7, with thresholds 5 and 20, before any read: amperage 0, vibration false, `Off`. -/
theorem serveData_zero_witness :
    F64.lt (F64.ofNat 5) (F64.ofNat 20) = true ∧
    serveData ⟨F64.ofNat 5, F64.ofNat 20⟩ State.init "12:00:00" =
      some ⟨F64.zero, false, MachineStatus.Off, "12:00:00"⟩ :=
  ⟨by decide,
    ((serveData_zero ⟨F64.ofNat 5, F64.ofNat 20⟩ State.init "12:00:00" (by decide) rfl).1).trans
      (by decide)⟩

/-- C7, as stated, fails for thresholds 0 and 10: before any read the status is
`Running`. -/
theorem serveData_zero_counterexample :
    F64.lt (F64.ofNat 0) (F64.ofNat 10) = true ∧
    serveData ⟨F64.ofNat 0, F64.ofNat 10⟩ State.init "12:00:00" =
      some ⟨F64.zero, false, MachineStatus.Running, "12:00:00"⟩ := by
  decide

/-! ## The framing step -/

/-- The result of `Split` has at least one segment. -/
theorem Split_ne_nil (s : GoString) (sep : Nat) : Split s sep ≠ [] := by
  cases s with
  | nil => simp [Split]
  | cons b rest =>
    unfold Split
    split
    · simp
    · split <;> simp

/-- The empty text: no complete segment, an empty rest. -/
theorem frameOf_nil (sep : Nat) : frameOf [] sep = ([], []) := by
  simp [frameOf, Split]

/-- A leading separator ends an empty segment. -/
theorem frameOf_cons_sep (s : GoString) (sep : Nat) :
    frameOf (sep :: s) sep = ([] :: (frameOf s sep).1, (frameOf s sep).2) := by
  have h := Split_ne_nil s sep
  obtain ⟨l, ls, hl⟩ := List.exists_cons_of_ne_nil h
  simp [frameOf, Split, hl, List.dropLast, List.getLastD_cons]

/-- A leading byte that is no separator joins the first segment, or the rest when there is no complete segment. -/
theorem frameOf_cons_ne (b : Nat) (s : GoString) (sep : Nat) (hb : b ≠ sep) :
    frameOf (b :: s) sep =
      match (frameOf s sep).1 with
      | [] => ([], b :: (frameOf s sep).2)
      | l :: ls => ((b :: l) :: ls, (frameOf s sep).2) := by
  have h := Split_ne_nil s sep
  obtain ⟨l, ls, hl⟩ := List.exists_cons_of_ne_nil h
  cases ls with
  | nil => simp [frameOf, Split, hl, hb]
  | cons l2 ls2 => simp [frameOf, Split, hl, hb, List.dropLast, List.getLastD_cons]

/-- Framing `a ++ b` is framing `a` and then framing the rest of `a` followed by `b`. -/
theorem frameOf_append (a b : GoString) (sep : Nat) :
    frameOf (a ++ b) sep =
      ((frameOf a sep).1 ++ (frameOf ((frameOf a sep).2 ++ b) sep).1,
        (frameOf ((frameOf a sep).2 ++ b) sep).2) := by
  induction a with
  | nil => simp [frameOf_nil]
  | cons x a ih =>
    by_cases hx : x = sep
    · subst hx
      rw [List.cons_append, frameOf_cons_sep, frameOf_cons_sep, ih]
      simp
    · rw [List.cons_append, frameOf_cons_ne _ _ _ hx, frameOf_cons_ne _ _ _ hx, ih]
      cases h1 : (frameOf a sep).1 with
      | nil =>
        simp only [List.nil_append, List.cons_append]
        rw [frameOf_cons_ne _ _ _ hx]
      | cons l ls => simp

/-- The framing step is `frameOf` on the buffer followed by the chunk. -/
theorem frameStep_eq (buffer chunk : GoString) :
    frameStep buffer chunk = frameOf (buffer ++ chunk) 0x0A := rfl

/-- No segment and no rest holds a separator. -/
theorem frameOf_not_mem (s : GoString) (sep : Nat) :
    sep ∉ (frameOf s sep).2 ∧ ∀ r ∈ (frameOf s sep).1, sep ∉ r := by
  induction s with
  | nil => simp [frameOf_nil]
  | cons x s ih =>
    by_cases hx : x = sep
    · subst hx
      rw [frameOf_cons_sep]
      simpa using ih
    · rw [frameOf_cons_ne _ _ _ hx]
      cases h1 : (frameOf s sep).1 with
      | nil =>
        simp only [List.mem_cons, not_or, List.not_mem_nil, false_implies, implies_true, and_true]
        exact ⟨fun h => hx h.symm, ih.1⟩
      | cons l ls =>
        rw [h1] at ih
        simp only [List.mem_cons, forall_eq_or_imp, not_or] at ih ⊢
        exact ⟨ih.1, ⟨fun h => hx h.symm, ih.2.1⟩, ih.2.2⟩

/-- The segments, each with its separator, and the rest spell the text. -/
theorem frameOf_lossless (s : GoString) (sep : Nat) :
    ((frameOf s sep).1.map (fun r => r ++ [sep])).flatten ++ (frameOf s sep).2 = s := by
  induction s with
  | nil => simp [frameOf_nil]
  | cons x s ih =>
    by_cases hx : x = sep
    · subst hx
      rw [frameOf_cons_sep]
      simpa using ih
    · rw [frameOf_cons_ne _ _ _ hx]
      cases h1 : (frameOf s sep).1 with
      | nil =>
        rw [h1] at ih
        simpa using ih
      | cons l ls =>
        rw [h1] at ih
        simpa using ih

/-- A text without separator is all rest. -/
theorem frameOf_of_not_mem (s : GoString) (sep : Nat) (h : sep ∉ s) :
    frameOf s sep = ([], s) := by
  induction s with
  | nil => simp [frameOf_nil]
  | cons x s ih =>
    simp only [List.mem_cons, not_or] at h
    rw [frameOf_cons_ne _ _ _ (fun hx => h.1 hx.symm), ih h.2]

/-- The framing steps over the chunks, from a buffer without terminator, frame the buffer followed by all the chunks. -/
theorem frameChunks_eq (buffer : GoString) (chunks : List GoString) (h : 0x0A ∉ buffer) :
    frameChunks buffer chunks = frameOf (buffer ++ chunks.flatten) 0x0A := by
  induction chunks generalizing buffer with
  | nil => simp [frameChunks, frameOf_of_not_mem _ _ h]
  | cons c cs ih =>
    simp only [frameChunks, frameStep_eq, List.flatten_cons]
    rw [ih _ (frameOf_not_mem _ _).1, ← List.append_assoc, frameOf_append (buffer ++ c)]

/-- C2: the framing steps of `readSerialData` over any cut of a stream into chunks, one
byte per chunk included, hand on the same lines in the same order and leave the same
`buffer` as one framing step over the whole stream. -/
theorem frameChunks_eq_whole (chunks : List GoString) (stream : GoString) :
    frameChunks [] chunks = frameStep [] chunks.flatten ∧
    frameChunks [] (stream.map fun b => [b]) = frameStep [] stream := by
  have h : ∀ cs : List GoString, frameChunks [] cs = frameStep [] cs.flatten := fun cs => by
    rw [frameChunks_eq [] cs (by simp), frameStep_eq]
  refine ⟨h chunks, ?_⟩
  rw [h]
  congr 1
  induction stream with
  | nil => rfl
  | cons b s ih => simp [ih]

/-! ## `processLine` and the loop of `readSerialData` -/

/-- The function `processLine` does not write `buffer`. -/
theorem processLine_buffer (line : GoString) (st : State) :
    (processLine line st).buffer = st.buffer := by
  unfold processLine
  split
  · rfl
  · simp only
    split
    · rfl
    · split
      · rfl
      · split <;> rfl

/-- The reading stored after `processLine` on a trimmed record is the one `parseRecord` reads from the record, and the old one when it reads none. -/
theorem processLine_currentData (record : GoString) (st : State) :
    (processLine (TrimSpace record) st).currentData =
      (parseRecord record).getD st.currentData := by
  unfold processLine parseRecord
  by_cases h1 : HasPrefix (TrimSpace record) (str "#") = true
  · simp [h1]
  by_cases h2 : TrimSpace record = []
  · simp [h2]
  have h2' : (TrimSpace record).isEmpty = false := by
    simpa [List.isEmpty_iff] using h2
  simp only [h1, h2', h2, Bool.or_self, Bool.false_eq_true, if_false, or_self]
  match hf : Fields (TrimSpace record) with
  | [] => simp
  | [_] => simp
  | _ :: _ :: _ :: _ => simp
  | [t1, t2] =>
    simp only [List.length_cons, List.length_nil, ne_eq, not_true_eq_false, if_false,
      List.getD_cons_zero, List.getD_cons_succ]
    by_cases hy : t1 = str "Y"
    · simp only [hy, if_true]
      cases Sscanf t2 <;> simp
    · by_cases hn : t1 = str "N"
      · simp only [hn, hy, if_true, if_false]
        have : ¬ str "N" = str "Y" := by decide
        simp only [this, if_false]
        cases Sscanf t2 <;> simp
      · simp [hy, hn]

/-- Processing lines does not write `buffer`. -/
theorem processLines_buffer (lines : List GoString) (st : State) :
    (processLines lines st).buffer = st.buffer := by
  induction lines generalizing st with
  | nil => rfl
  | cons l ls ih =>
    simp only [processLines, List.foldl_cons] at ih ⊢
    rw [ih, processLine_buffer]

/-- Processing two lists of lines one after the other. -/
theorem processLines_append (xs ys : List GoString) (st : State) :
    processLines (xs ++ ys) st = processLines ys (processLines xs st) := by
  simp [processLines, List.foldl_append]

/-- After a list of lines the stored reading is the one of the last record that `parseRecord` accepts, and the old one when there is none. -/
theorem processLines_currentData (lines : List GoString) (st : State) :
    (processLines lines st).currentData = (lastValid lines).getD st.currentData := by
  induction lines generalizing st with
  | nil => simp [processLines, lastValid]
  | cons l ls ih =>
    have hstep : processLines (l :: ls) st = processLines ls (processLine (TrimSpace l) st) := rfl
    rw [hstep, ih, processLine_currentData]
    unfold lastValid
    cases hp : parseRecord l with
    | none => simp [List.filterMap_cons, hp]
    | some d =>
      simp only [List.filterMap_cons, hp, Option.getD_some]
      cases hq : List.filterMap parseRecord ls with
      | nil => simp
      | cons q qs => simp [List.getLast?_eq_getLast _ (List.cons_ne_nil q qs)]

/-- The function `processLine` does not read `buffer`. -/
theorem processLine_ignores_buffer (line b : GoString) (st : State) :
    processLine line { st with buffer := b } = { processLine line st with buffer := b } := by
  unfold processLine
  split
  · rfl
  · simp only
    split
    · rfl
    · split
      · rfl
      · split <;> rfl

/-- Processing lines does not read `buffer`. -/
theorem processLines_ignores_buffer (lines : List GoString) (b : GoString) (st : State) :
    processLines lines { st with buffer := b } = { processLines lines st with buffer := b } := by
  induction lines generalizing st with
  | nil => rfl
  | cons l ls ih =>
    have h1 : ∀ s, processLines (l :: ls) s = processLines ls (processLine (TrimSpace l) s) :=
      fun _ => rfl
    rw [h1, h1, processLine_ignores_buffer, ih]

/-- One round of the loop on a chunk: the lines of the framing step are processed, and its rest is the new `buffer`. -/
theorem loopStep_data (st : State) (chunk : GoString) :
    loopStep st (ReadResult.data chunk) =
      { processLines (frameStep st.buffer chunk).1 st with
        buffer := (frameStep st.buffer chunk).2 } := by
  simp only [loopStep]
  exact processLines_ignores_buffer _ _ _

/-- The loop over a list of chunks processes the lines of all the framing steps in order and keeps the last rest. -/
theorem readSerialData_chunks (st : State) (chunks : List GoString) :
    readSerialData st (chunks.map ReadResult.data) =
      { processLines (frameChunks st.buffer chunks).1 st with
        buffer := (frameChunks st.buffer chunks).2 } := by
  induction chunks generalizing st with
  | nil => simp [readSerialData, frameChunks, processLines]
  | cons c cs ih =>
    have h1 : readSerialData st ((c :: cs).map ReadResult.data) =
        readSerialData (loopStep st (ReadResult.data c)) (cs.map ReadResult.data) := rfl
    rw [h1, ih, loopStep_data]
    simp only [frameChunks, processLines_append, processLines_ignores_buffer]

/-- After any list of chunks, read from the start, the stored reading is the one of the last complete record of the stream that `parseRecord` accepts. -/
theorem readSerialData_currentData (chunks : List GoString) :
    (readSerialData State.init (chunks.map ReadResult.data)).currentData =
      (lastValid (completeRecords chunks.flatten)).getD SensorData.zero := by
  rw [readSerialData_chunks]
  simp only [State.init]
  rw [processLines_currentData, frameChunks_eq [] chunks (by simp)]
  rfl

/-! ## Rounding to the nearest float64 -/

theorem bitLenAux_spec (fuel n : Nat) (hf : n ≤ fuel) (hn : 0 < n) :
    2 ^ (bitLenAux fuel n - 1) ≤ n ∧ n < 2 ^ bitLenAux fuel n := by
  induction fuel generalizing n with
  | zero => omega
  | succ k ih =>
    simp only [bitLenAux, Nat.ne_of_gt hn, if_false, Nat.add_sub_cancel]
    by_cases h2 : n / 2 = 0
    · have h1 : n = 1 := by omega
      subst h1
      cases k <;> simp [bitLenAux]
    · have hpos : 0 < n / 2 := Nat.pos_of_ne_zero h2
      obtain ⟨l, u⟩ := ih (n / 2) (by omega) hpos
      have hb : 1 ≤ bitLenAux k (n / 2) := by
        by_contra hc
        have : bitLenAux k (n / 2) = 0 := by omega
        rw [this] at u
        omega
      constructor
      · have : 2 ^ bitLenAux k (n / 2) = 2 * 2 ^ (bitLenAux k (n / 2) - 1) := by
          rw [← pow_succ']; congr 1; omega
        omega
      · rw [pow_succ]
        omega

theorem bitLen_spec (n : Nat) (hn : 0 < n) : 2 ^ (bitLen n - 1) ≤ n ∧ n < 2 ^ bitLen n :=
  bitLenAux_spec n n (le_refl _) hn

theorem bitLen_pos (n : Nat) (hn : 0 < n) : 1 ≤ bitLen n := by
  by_contra hc
  have h0 : bitLen n = 0 := by omega
  have := (bitLen_spec n hn).2
  rw [h0] at this
  omega

theorem scale_pos (num den : Nat) (e : Int) (hden : 0 < den) : 0 < (scale num den e).2 := by
  unfold scale
  split
  · exact Nat.mul_pos hden (pow_pos (by norm_num) _)
  · exact hden

/-- The pair `scale num den e` is the quotient `num / den / 2 ^ e`. -/
theorem scale_val (num den : Nat) (e : Int) (hden : 0 < den) :
    ((scale num den e).1 : ℚ) / ((scale num den e).2 : ℚ) = (num : ℚ) / den / (2 : ℚ) ^ e := by
  have hd : (den : ℚ) ≠ 0 := by exact_mod_cast Nat.ne_of_gt hden
  unfold scale
  split
  · rename_i h
    have : (2 : ℚ) ^ e = (2 : ℚ) ^ e.toNat := by
      rw [← zpow_natCast, Int.toNat_of_nonneg h]
    simp only [Nat.cast_mul, Nat.cast_pow, Nat.cast_ofNat]
    rw [this, div_div]
  · rename_i h
    have h' : 0 ≤ -e := by omega
    have : (2 : ℚ) ^ e = ((2 : ℚ) ^ (-e).toNat)⁻¹ := by
      rw [← zpow_natCast, Int.toNat_of_nonneg h', zpow_neg, inv_inv]
    simp only [Nat.cast_mul, Nat.cast_pow, Nat.cast_ofNat]
    rw [this]
    field_simp

/-- The floor quotient of the scaled pair is below a natural `c` exactly when the scaled
rational is. -/
theorem scale_div_lt (num den : Nat) (e : Int) (c : Nat) (hden : 0 < den) :
    (scale num den e).1 / (scale num den e).2 < c ↔ (num : ℚ) / den / (2 : ℚ) ^ e < c := by
  rw [← scale_val num den e hden]
  have hp := scale_pos num den e hden
  have hpq : (0 : ℚ) < ((scale num den e).2 : ℚ) := by exact_mod_cast hp
  rw [Nat.div_lt_iff_lt_mul hp, div_lt_iff₀ hpq]
  exact_mod_cast Iff.rfl

/-- The exponent before the clamp at -1074 puts the quotient between `2 ^ 52` and
`2 ^ 53`. -/
theorem ulpExp_spec (num den : Nat) (hnum : 0 < num) (hden : 0 < den) :
    -1074 ≤ ulpExp num den ∧
    (num : ℚ) / den / (2 : ℚ) ^ ulpExp num den < 2 ^ 53 ∧
    (2 ^ 52 ≤ (num : ℚ) / den / (2 : ℚ) ^ ulpExp num den ∨ ulpExp num den = -1074) := by
  obtain ⟨l1, u1⟩ := bitLen_spec num hnum
  obtain ⟨l2, u2⟩ := bitLen_spec den hden
  have p1 := bitLen_pos num hnum
  have p2 := bitLen_pos den hden
  set L1 := bitLen num with hL1
  set L2 := bitLen den with hL2
  have hA : (0 : ℚ) < (2 : ℚ) ^ (L1 - 1) := pow_pos (by norm_num) _
  have hB : (0 : ℚ) < (2 : ℚ) ^ (L2 - 1) := pow_pos (by norm_num) _
  have l1q : (2 : ℚ) ^ (L1 - 1) ≤ num := by exact_mod_cast l1
  have l2q : (2 : ℚ) ^ (L2 - 1) ≤ den := by exact_mod_cast l2
  have u1q : (num : ℚ) < 2 * 2 ^ (L1 - 1) := by
    have : (2 : ℚ) * 2 ^ (L1 - 1) = 2 ^ L1 := by
      rw [← pow_succ']; congr 1; omega
    rw [this]; exact_mod_cast u1
  have u2q : (den : ℚ) < 2 * 2 ^ (L2 - 1) := by
    have : (2 : ℚ) * 2 ^ (L2 - 1) = 2 ^ L2 := by
      rw [← pow_succ']; congr 1; omega
    rw [this]; exact_mod_cast u2
  have hnq : (0 : ℚ) < num := by exact_mod_cast hnum
  have hdq : (0 : ℚ) < den := by exact_mod_cast hden
  -- the first guess of the exponent
  have he0 : (2 : ℚ) ^ ((L1 : ℤ) - (L2 : ℤ) - 53) =
      (2 : ℚ) ^ (L1 - 1) / (2 : ℚ) ^ (L2 - 1) / 2 ^ 53 := by
    have : (L1 : ℤ) - (L2 : ℤ) - 53 = ((L1 - 1 : ℕ) : ℤ) - ((L2 - 1 : ℕ) : ℤ) - (53 : ℕ) := by
      omega
    rw [this, zpow_sub₀ (by norm_num), zpow_sub₀ (by norm_num), zpow_natCast, zpow_natCast,
      zpow_natCast]
  have hy0 : (num : ℚ) / den / (2 : ℚ) ^ ((L1 : ℤ) - (L2 : ℤ) - 53) =
      (num : ℚ) * 2 ^ (L2 - 1) * 2 ^ 53 / (den * 2 ^ (L1 - 1)) := by
    rw [he0]; field_simp; ring
  have hlo : (2 : ℚ) ^ 52 < (num : ℚ) / den / (2 : ℚ) ^ ((L1 : ℤ) - (L2 : ℤ) - 53) := by
    rw [hy0, lt_div_iff₀ (mul_pos hdq hA)]
    nlinarith [mul_pos hA hB]
  have hhi : (num : ℚ) / den / (2 : ℚ) ^ ((L1 : ℤ) - (L2 : ℤ) - 53) < 2 ^ 54 := by
    rw [hy0, div_lt_iff₀ (mul_pos hdq hA)]
    nlinarith [mul_pos hA hB]
  -- the exponent before the clamp
  have key : ∃ e1 : ℤ, ulpExp num den = max e1 (-1074) ∧
      (2 : ℚ) ^ 52 ≤ (num : ℚ) / den / (2 : ℚ) ^ e1 ∧
      (num : ℚ) / den / (2 : ℚ) ^ e1 < 2 ^ 53 := by
    by_cases ht : (scale num den ((L1 : ℤ) - (L2 : ℤ) - 53)).1 /
        (scale num den ((L1 : ℤ) - (L2 : ℤ) - 53)).2 < 2 ^ 53
    · refine ⟨(L1 : ℤ) - (L2 : ℤ) - 53, ?_, hlo.le, ?_⟩
      · simp only [ulpExp, ← hL1, ← hL2, ht, if_true]
      · have := (scale_div_lt num den _ (2 ^ 53) hden).mp ht
        exact_mod_cast this
    · refine ⟨(L1 : ℤ) - (L2 : ℤ) - 53 + 1, ?_, ?_, ?_⟩
      · simp only [ulpExp, ← hL1, ← hL2, ht, if_false]
      · have h53 : ¬ (num : ℚ) / den / (2 : ℚ) ^ ((L1 : ℤ) - (L2 : ℤ) - 53) < 2 ^ 53 := by
          intro hc
          apply ht
          apply (scale_div_lt num den _ (2 ^ 53) hden).mpr
          exact_mod_cast hc
        rw [zpow_add₀ (by norm_num), zpow_one, ← div_div]
        rw [le_div_iff₀ (by norm_num)]
        push_neg at h53
        linarith
      · rw [zpow_add₀ (by norm_num), zpow_one, ← div_div]
        rw [div_lt_iff₀ (by norm_num)]
        linarith
  obtain ⟨e1, hu, hl, hh⟩ := key
  rw [hu]
  refine ⟨le_max_right _ _, ?_, ?_⟩
  · rcases le_total (-1074) e1 with h | h
    · rw [max_eq_left h]; exact hh
    · rw [max_eq_right h]
      have hq : (0 : ℚ) < (num : ℚ) / den := div_pos hnq hdq
      have hle : (2 : ℚ) ^ e1 ≤ (2 : ℚ) ^ (-1074 : ℤ) := zpow_le_zpow_right₀ (by norm_num) h
      calc (num : ℚ) / den / (2 : ℚ) ^ (-1074 : ℤ)
          ≤ (num : ℚ) / den / (2 : ℚ) ^ e1 :=
            div_le_div_of_nonneg_left hq.le (zpow_pos (by norm_num) _) hle
        _ < 2 ^ 53 := hh
  · rcases le_total (-1074) e1 with h | h
    · rw [max_eq_left h]; exact Or.inl hl
    · rw [max_eq_right h]; exact Or.inr rfl

/-- The function `divRoundEven` returns an integer nearest to the quotient, and an even one
when the quotient lies halfway between two integers. -/
theorem divRoundEven_spec (a b : Nat) (hb : 0 < b) :
    |(a : ℚ) / b - (divRoundEven a b : ℚ)| ≤ 1 / 2 ∧
    (|(a : ℚ) / b - (divRoundEven a b : ℚ)| = 1 / 2 → Even (divRoundEven a b)) := by
  have hbq : (0 : ℚ) < b := by exact_mod_cast hb
  have hr : a % b < b := Nat.mod_lt _ hb
  have hrq : ((a % b : ℕ) : ℚ) < b := by exact_mod_cast hr
  have hr0 : (0 : ℚ) ≤ ((a % b : ℕ) : ℚ) := Nat.cast_nonneg _
  have hy : (a : ℚ) / b = ((a / b : ℕ) : ℚ) + ((a % b : ℕ) : ℚ) / b := by
    have h := Nat.div_add_mod a b
    have hq : (a : ℚ) = (b : ℚ) * ((a / b : ℕ) : ℚ) + ((a % b : ℕ) : ℚ) := by exact_mod_cast h.symm
    field_simp
    linarith
  unfold divRoundEven
  split_ifs with h1 h2 h3
  · have h1q : 2 * ((a % b : ℕ) : ℚ) < b := by exact_mod_cast h1
    have hf : ((a % b : ℕ) : ℚ) / b < 1 / 2 := by
      rw [div_lt_iff₀ hbq]; linarith
    have hf0 : 0 ≤ ((a % b : ℕ) : ℚ) / b := div_nonneg hr0 hbq.le
    rw [hy, add_sub_cancel_left, abs_of_nonneg hf0]
    exact ⟨hf.le, fun h => absurd h (ne_of_lt hf)⟩
  · have h2q : (b : ℚ) < 2 * ((a % b : ℕ) : ℚ) := by exact_mod_cast h2
    have hf : 1 / 2 < ((a % b : ℕ) : ℚ) / b := by
      rw [lt_div_iff₀ hbq]; linarith
    have hf1 : ((a % b : ℕ) : ℚ) / b < 1 := by
      rw [div_lt_iff₀ hbq]; linarith
    have e : ((a / b : ℕ) : ℚ) + ((a % b : ℕ) : ℚ) / b - ((a / b + 1 : ℕ) : ℚ) =
        -(1 - ((a % b : ℕ) : ℚ) / b) := by push_cast; ring
    rw [hy, e, abs_neg, abs_of_nonneg (by linarith)]
    exact ⟨by linarith, fun h => absurd h (by linarith [hf] : ¬ _ = _) ⟩
  · have heq : 2 * (a % b) = b := by omega
    have heqq : 2 * ((a % b : ℕ) : ℚ) = b := by exact_mod_cast heq
    have hf : ((a % b : ℕ) : ℚ) / b = 1 / 2 := by
      rw [div_eq_iff (ne_of_gt hbq)]; linarith
    rw [hy, add_sub_cancel_left, hf, abs_of_pos (by norm_num : (0 : ℚ) < 1 / 2)]
    exact ⟨le_refl _, fun _ => Nat.even_iff.mpr h3⟩
  · have heq : 2 * (a % b) = b := by omega
    have heqq : 2 * ((a % b : ℕ) : ℚ) = b := by exact_mod_cast heq
    have hf : ((a % b : ℕ) : ℚ) / b = 1 / 2 := by
      rw [div_eq_iff (ne_of_gt hbq)]; linarith
    have e : ((a / b : ℕ) : ℚ) + ((a % b : ℕ) : ℚ) / b - ((a / b + 1 : ℕ) : ℚ) = -(1 / 2) := by
      rw [hf]; push_cast; ring
    rw [hy, e, abs_neg, abs_of_pos (by norm_num : (0 : ℚ) < 1 / 2)]
    refine ⟨le_refl _, fun _ => ?_⟩
    rw [Nat.even_add_one, Nat.even_iff]
    exact h3

/-- An integer within one half of `y` is nearest to `y` among the integers, and another
integer is as near only when the distance is one half. -/
theorem nearest_int (y : ℚ) (m k : ℤ) (hm : |y - m| ≤ 1 / 2) :
    |y - m| ≤ |y - k| ∧ (|y - m| = |y - k| → k = m ∨ |y - m| = 1 / 2) := by
  by_cases hk : k = m
  · subst hk; exact ⟨le_refl _, fun _ => Or.inl rfl⟩
  · have h1 : (1 : ℚ) ≤ |(k : ℚ) - m| := by
      have : (1 : ℤ) ≤ |k - m| := Int.one_le_abs (sub_ne_zero.mpr hk)
      exact_mod_cast this
    have h2 : |(k : ℚ) - m| ≤ |y - m| + |y - k| := by
      have : (k : ℚ) - m = (y - m) - (y - k) := by ring
      rw [this]
      exact abs_sub _ _
    constructor
    · linarith
    · intro h
      right
      linarith

/-- A float64 value is an integer multiple of `2 ^ e`, or smaller than `2 ^ (52 + e)` in
magnitude, for every exponent `e`. -/
theorem IsFloat64.multiple_or_small {w : ℚ} (hw : IsFloat64 w) (e : ℤ) :
    (∃ k : ℤ, w = k * (2 : ℚ) ^ e) ∨ (|w| < 2 ^ 52 * (2 : ℚ) ^ e ∧ -1074 < e) := by
  obtain ⟨mw, ew, hm, hl, -, rfl⟩ := hw
  rcases le_or_lt e ew with h | h
  · left
    refine ⟨mw * 2 ^ (ew - e).toNat, ?_⟩
    have : (2 : ℚ) ^ ew = (2 : ℚ) ^ (ew - e).toNat * (2 : ℚ) ^ e := by
      rw [← zpow_natCast, Int.toNat_of_nonneg (by omega), ← zpow_add₀ (by norm_num)]
      congr 1; ring
    rw [this]
    push_cast
    ring
  · right
    refine ⟨?_, by omega⟩
    have hmq : |(mw : ℚ)| < 2 ^ 53 := by
      have : ((|mw| : ℤ) : ℚ) < ((2 ^ 53 : ℤ) : ℚ) := by exact_mod_cast hm
      simpa [Int.cast_abs] using this
    have hpow : (2 : ℚ) ^ ew ≤ (2 : ℚ) ^ (e - 1) :=
      zpow_le_zpow_right₀ (by norm_num) (by omega)
    have he1 : (2 : ℚ) ^ (e - 1) = (2 : ℚ) ^ e / 2 := by
      rw [zpow_sub₀ (by norm_num), zpow_one]
    have hpos : (0 : ℚ) < (2 : ℚ) ^ ew := zpow_pos (by norm_num) _
    have hpe : (0 : ℚ) < (2 : ℚ) ^ e := zpow_pos (by norm_num) _
    rw [abs_mul, abs_of_pos hpos]
    calc |(mw : ℚ)| * (2 : ℚ) ^ ew < 2 ^ 53 * (2 : ℚ) ^ ew :=
          mul_lt_mul_of_pos_right hmq hpos
      _ ≤ 2 ^ 53 * ((2 : ℚ) ^ e / 2) := by
          rw [← he1]; exact mul_le_mul_of_nonneg_left hpow (by norm_num)
      _ = 2 ^ 52 * (2 : ℚ) ^ e := by ring

/-- Rounding the quotient `q / 2 ^ e` to an integer `m`, for the exponent `e` of the unit in
the last place of a positive `q`, gives the float64 nearest to `q`. -/
theorem nearest_core (q : ℚ) (e : ℤ) (m : ℕ) (he : -1074 ≤ e)
    (hlt : q / (2 : ℚ) ^ e < 2 ^ 53) (hnorm : 2 ^ 52 ≤ q / (2 : ℚ) ^ e ∨ e = -1074)
    (hm : |q / (2 : ℚ) ^ e - (m : ℚ)| ≤ 1 / 2)
    (hmeven : |q / (2 : ℚ) ^ e - (m : ℚ)| = 1 / 2 → Even m)
    (hno : ¬ (971 < e ∨ (e = 971 ∧ 2 ^ 53 ≤ m))) :
    IsNearestFloat64 q ((m : ℚ) * (2 : ℚ) ^ e) := by
  have hpe : (0 : ℚ) < (2 : ℚ) ^ e := zpow_pos (by norm_num) _
  set y := q / (2 : ℚ) ^ e with hy
  have hqy : q = y * (2 : ℚ) ^ e := by rw [hy]; field_simp
  have habs := abs_le.mp hm
  -- bounds of the rounded significand
  have hm53 : m ≤ 2 ^ 53 := by
    have : (m : ℚ) < 2 ^ 53 + 1 := by linarith [habs.1]
    have : (m : ℚ) < ((2 ^ 53 + 1 : ℕ) : ℚ) := by push_cast; linarith
    have : m < 2 ^ 53 + 1 := by exact_mod_cast this
    omega
  have hm52 : 2 ^ 52 ≤ y → 2 ^ 52 ≤ m := by
    intro h
    have : ((2 ^ 52 - 1 : ℕ) : ℚ) < (m : ℚ) := by
      have : ((2 ^ 52 - 1 : ℕ) : ℚ) = 2 ^ 52 - 1 := by norm_num
      rw [this]; linarith [habs.2]
    have : 2 ^ 52 - 1 < m := by exact_mod_cast this
    omega
  -- the value is a float64, even when `m` is
  have hrep : IsFloat64 ((m : ℚ) * (2 : ℚ) ^ e) ∧
      (Even m → IsEvenFloat64 ((m : ℚ) * (2 : ℚ) ^ e)) := by
    by_cases h53 : m = 2 ^ 53
    · have he971 : e < 971 := by
        by_contra hc
        apply hno
        rcases lt_or_eq_of_le (not_lt.mp hc) with h | h
        · exact Or.inl h
        · exact Or.inr ⟨h.symm, by omega⟩
      have hval : (m : ℚ) * (2 : ℚ) ^ e = ((2 ^ 52 : ℤ) : ℚ) * (2 : ℚ) ^ (e + 1) := by
        rw [h53, zpow_add₀ (by norm_num), zpow_one]
        push_cast
        ring
      rw [hval]
      exact ⟨⟨2 ^ 52, e + 1, by norm_num, by omega, by omega, rfl⟩,
        fun _ => ⟨2 ^ 52, e + 1, by decide, by norm_num, by omega, by omega,
          Or.inl (by norm_num), rfl⟩⟩
    · have hlt53 : m < 2 ^ 53 := lt_of_le_of_ne hm53 h53
      have he971 : e ≤ 971 := by
        by_contra hc
        exact hno (Or.inl (not_le.mp hc))
      have hmabs : |(m : ℤ)| < 2 ^ 53 := by
        rw [abs_of_nonneg (by positivity)]
        exact_mod_cast hlt53
      have hval : (m : ℚ) * (2 : ℚ) ^ e = ((m : ℤ) : ℚ) * (2 : ℚ) ^ e := by norm_num
      rw [hval]
      refine ⟨⟨m, e, hmabs, he, he971, rfl⟩, fun hev => ⟨m, e, ?_, hmabs, he, he971, ?_, rfl⟩⟩
      · exact (Int.even_coe_nat m).mpr hev
      · rcases hnorm with h | h
        · left
          rw [abs_of_nonneg (by positivity)]
          exact_mod_cast hm52 h
        · exact Or.inr h
  refine ⟨hrep.1, fun w hw => ?_⟩
  have hx : q - (m : ℚ) * (2 : ℚ) ^ e = (y - m) * (2 : ℚ) ^ e := by rw [hqy]; ring
  rcases hw.multiple_or_small e with ⟨k, rfl⟩ | ⟨hsmall, hegt⟩
  · have hwk : q - (k : ℚ) * (2 : ℚ) ^ e = (y - k) * (2 : ℚ) ^ e := by rw [hqy]; ring
    obtain ⟨n1, n2⟩ := nearest_int y m k (by exact_mod_cast hm)
    have n1' : |y - (m : ℚ)| ≤ |y - (k : ℚ)| := by exact_mod_cast n1
    rw [hx, hwk, abs_mul, abs_mul, abs_of_pos hpe]
    refine ⟨mul_le_mul_of_nonneg_right n1' hpe.le, fun heq => ?_⟩
    have heq' : |y - ((m : ℤ) : ℚ)| = |y - (k : ℚ)| := by
      have := mul_right_cancel₀ (ne_of_gt hpe) heq
      exact_mod_cast this
    rcases n2 heq' with h | h
    · left; rw [h]; norm_num
    · right
      exact hrep.2 (hmeven (by exact_mod_cast h))
  · have hy52 : 2 ^ 52 ≤ y := by
      rcases hnorm with h | h
      · exact h
      · omega
    obtain ⟨n1, -⟩ := nearest_int y m (2 ^ 52) (by exact_mod_cast hm)
    have n1' : |y - (m : ℚ)| ≤ y - 2 ^ 52 := by
      have : |y - ((2 ^ 52 : ℤ) : ℚ)| = y - 2 ^ 52 := by
        rw [abs_of_nonneg (by push_cast; linarith)]; push_cast; ring
      rw [← this]; exact_mod_cast n1
    have hwlt : w < 2 ^ 52 * (2 : ℚ) ^ e := lt_of_le_of_lt (le_abs_self w) hsmall
    have hqge : 2 ^ 52 * (2 : ℚ) ^ e ≤ q := by
      rw [hqy]; exact mul_le_mul_of_nonneg_right hy52 hpe.le
    have hstrict : |q - (m : ℚ) * (2 : ℚ) ^ e| < |q - w| := by
      rw [hx, abs_mul, abs_of_pos hpe, abs_of_pos (by linarith : 0 < q - w)]
      calc |y - (m : ℚ)| * (2 : ℚ) ^ e ≤ (y - 2 ^ 52) * (2 : ℚ) ^ e :=
            mul_le_mul_of_nonneg_right n1' hpe.le
        _ = q - 2 ^ 52 * (2 : ℚ) ^ e := by rw [hqy]; ring
        _ < q - w := by linarith
    exact ⟨hstrict.le, fun h => absurd h (ne_of_lt hstrict)⟩

theorem isFloat64_neg {w : ℚ} (hw : IsFloat64 w) : IsFloat64 (-w) := by
  obtain ⟨m, e, h1, h2, h3, rfl⟩ := hw
  exact ⟨-m, e, by rwa [abs_neg], h2, h3, by push_cast; ring⟩

theorem isEvenFloat64_even_neg {w : ℚ} (hw : IsEvenFloat64 w) : IsEvenFloat64 (-w) := by
  obtain ⟨m, e, h0, h1, h2, h3, h4, rfl⟩ := hw
  exact ⟨-m, e, h0.neg, by rwa [abs_neg], h2, h3, by rwa [abs_neg], by push_cast; ring⟩

theorem isNearestFloat64_nearest_neg {q x : ℚ} (h : IsNearestFloat64 q x) :
    IsNearestFloat64 (-q) (-x) := by
  refine ⟨isFloat64_neg h.1, fun w hw => ?_⟩
  have e1 : |-q - -x| = |q - x| := by rw [← abs_neg]; congr 1; ring
  have e2 : |-q - w| = |q - -w| := by rw [← abs_neg]; congr 1; ring
  obtain ⟨a, b⟩ := h.2 (-w) (isFloat64_neg hw)
  rw [e1, e2]
  refine ⟨a, fun heq => ?_⟩
  rcases b heq with hb | hb
  · left; rw [← hb]; ring
  · exact Or.inr (isEvenFloat64_even_neg hb)

theorem IsNearestFloat64.zero : IsNearestFloat64 0 0 := by
  refine ⟨⟨0, 0, by norm_num, by norm_num, by norm_num, by norm_num⟩, fun w _ => ?_⟩
  simp only [sub_zero, abs_zero, zero_sub, abs_neg]
  refine ⟨abs_nonneg w, fun h => Or.inl ?_⟩
  exact abs_eq_zero.mp h.symm

/-- A rational that is a float64 is its own nearest float64, and the only one. -/
theorem IsNearestFloat64.eq_of_isFloat64 {q x : ℚ} (h : IsNearestFloat64 q x)
    (hq : IsFloat64 q) : x = q := by
  have := (h.2 q hq).1
  rw [sub_self, abs_zero] at this
  have h0 : |q - x| = 0 := le_antisymm this (abs_nonneg _)
  have := abs_eq_zero.mp h0
  linarith

/-- Halving an even mantissa keeps the value. -/
theorem oddPartAux_val (fuel m : Nat) (e : Int) :
    ((oddPartAux fuel m e).1 : ℚ) * (2 : ℚ) ^ (oddPartAux fuel m e).2 = (m : ℚ) * (2 : ℚ) ^ e := by
  induction fuel generalizing m e with
  | zero => rfl
  | succ k ih =>
    simp only [oddPartAux]
    split
    · rename_i h
      rw [ih]
      have hm : m = 2 * (m / 2) := by omega
      have : (m : ℚ) = 2 * ((m / 2 : ℕ) : ℚ) := by exact_mod_cast hm
      rw [zpow_add₀ (by norm_num), zpow_one, this]
      ring
    · rfl

/-- The function `F64.dyadic` returns a finite value, `± m * 2 ^ e`. -/
theorem dyadic_val (neg : Bool) (m : Nat) (e : Int) :
    ∃ m1 e1 : ℤ, F64.dyadic neg m e = F64.fin m1 e1 ∧
      F64.finVal m1 e1 = (if neg then -1 else 1) * ((m : ℚ) * (2 : ℚ) ^ e) := by
  unfold F64.dyadic
  by_cases h0 : m = 0
  · subst h0
    refine ⟨0, 0, by simp, ?_⟩
    simp [F64.finVal]
  · simp only [h0, if_false]
    refine ⟨_, _, rfl, ?_⟩
    have := oddPartAux_val m m e
    cases neg with
    | false =>
      simp only [F64.finVal, Bool.false_eq_true, if_false, one_mul, Int.cast_natCast]
      exact this
    | true =>
      simp only [F64.finVal, if_true, Int.cast_neg, Int.cast_natCast, neg_mul, one_mul]
      rw [this]

set_option exponentiation.threshold 1100 in
/-- The test of `roundF64` for an infinity holds exactly from `overflowBound` on. -/
theorem overflow_iff (q : ℚ) (e : ℤ) (m : ℕ)
    (hlt : q / (2 : ℚ) ^ e < 2 ^ 53) (hnorm : 2 ^ 52 ≤ q / (2 : ℚ) ^ e ∨ e = -1074)
    (hm : |q / (2 : ℚ) ^ e - (m : ℚ)| ≤ 1 / 2)
    (hmeven : |q / (2 : ℚ) ^ e - (m : ℚ)| = 1 / 2 → Even m) :
    (971 < e ∨ (e = 971 ∧ 2 ^ 53 ≤ m)) ↔ overflowBound ≤ q := by
  have hpe : (0 : ℚ) < (2 : ℚ) ^ e := zpow_pos (by norm_num) _
  set y := q / (2 : ℚ) ^ e with hy
  have hqy : q = y * (2 : ℚ) ^ e := by rw [hy]; field_simp
  have habs := abs_le.mp hm
  have h971 : (2 : ℚ) ^ (971 : ℤ) = 2 ^ 971 := zpow_ofNat 2 971
  have h972 : (2 : ℚ) ^ (972 : ℤ) = 2 ^ 972 := zpow_ofNat 2 972
  have h970 : (2 : ℚ) ^ (970 : ℤ) = 2 ^ 970 := zpow_ofNat 2 970
  unfold overflowBound
  constructor
  · rintro (h | ⟨h1, h2⟩)
    · have hy52 : 2 ^ 52 ≤ y := by
        rcases hnorm with h' | h'
        · exact h'
        · omega
      have hpow : (2 : ℚ) ^ (972 : ℤ) ≤ (2 : ℚ) ^ e := zpow_le_zpow_right₀ (by norm_num) (by omega)
      rw [h972] at hpow
      have : (2 : ℚ) ^ 52 * 2 ^ 972 ≤ y * (2 : ℚ) ^ e :=
        mul_le_mul hy52 hpow (by positivity) (by linarith)
      rw [hqy]
      have e1 : (2 : ℚ) ^ 52 * 2 ^ 972 = 2 ^ 1024 := by rw [← pow_add]
      have : (0 : ℚ) < 2 ^ 970 := by positivity
      linarith
    · have hm' : (2 : ℚ) ^ 53 ≤ m := by exact_mod_cast h2
      have hy' : 2 ^ 53 - 1 / 2 ≤ y := by linarith [habs.1]
      rw [hqy, h1, h971]
      have e1 : (2 : ℚ) ^ 1024 - 2 ^ 970 = (2 ^ 53 - 1 / 2) * 2 ^ 971 := by
        have a : (2 : ℚ) ^ 1024 = 2 ^ 53 * 2 ^ 971 := by rw [← pow_add]
        have b : (2 : ℚ) ^ 971 = 2 * 2 ^ 970 := by rw [← pow_succ']
        rw [a, b]; ring
      rw [e1]
      exact mul_le_mul_of_nonneg_right hy' (by positivity)
  · intro hT
    by_contra hc
    push_neg at hc
    obtain ⟨hc1, hc2⟩ := hc
    have e1 : (2 : ℚ) ^ 1024 - 2 ^ 970 = (2 ^ 53 - 1 / 2) * 2 ^ 971 := by
      have a : (2 : ℚ) ^ 1024 = 2 ^ 53 * 2 ^ 971 := by rw [← pow_add]
      have b : (2 : ℚ) ^ 971 = 2 * 2 ^ 970 := by rw [← pow_succ']
      rw [a, b]; ring
    rcases lt_or_eq_of_le hc1 with h | h
    · have hpow : (2 : ℚ) ^ e ≤ (2 : ℚ) ^ (970 : ℤ) := zpow_le_zpow_right₀ (by norm_num) (by omega)
      rw [h970] at hpow
      have hq : q < 2 ^ 53 * 2 ^ 970 := by
        rw [hqy]
        calc y * (2 : ℚ) ^ e < 2 ^ 53 * (2 : ℚ) ^ e := mul_lt_mul_of_pos_right hlt hpe
          _ ≤ 2 ^ 53 * 2 ^ 970 := mul_le_mul_of_nonneg_left hpow (by positivity)
      have b : (2 : ℚ) ^ 971 = 2 * 2 ^ 970 := by rw [← pow_succ']
      have p : (0 : ℚ) < 2 ^ 970 := by positivity
      rw [e1, b] at hT
      nlinarith
    · have hm53 : m < 2 ^ 53 := hc2 h
      have hm' : (m : ℚ) ≤ 2 ^ 53 - 1 := by
        have : m ≤ 2 ^ 53 - 1 := by omega
        have : (m : ℚ) ≤ ((2 ^ 53 - 1 : ℕ) : ℚ) := by exact_mod_cast this
        have e2 : ((2 ^ 53 - 1 : ℕ) : ℚ) = 2 ^ 53 - 1 := by norm_num
        rw [e2] at this; exact this
      rw [hqy, h, h971, e1] at hT
      have hy' : 2 ^ 53 - 1 / 2 ≤ y := le_of_mul_le_mul_right hT (by positivity)
      have hmeq : (m : ℚ) = 2 ^ 53 - 1 := by linarith [habs.2]
      have htie : |y - (m : ℚ)| = 1 / 2 := by
        have : y - (m : ℚ) = 1 / 2 := by linarith [habs.2]
        rw [this]; norm_num
      have hev := hmeven htie
      have hmn : m = 2 ^ 53 - 1 := by
        have : (m : ℚ) = ((2 ^ 53 - 1 : ℕ) : ℚ) := by rw [hmeq]; norm_num
        exact_mod_cast this
      rw [hmn] at hev
      revert hev
      decide

/-- The function `roundF64` is IEEE 754 round-to-nearest-even into float64: below
`overflowBound` it returns the float64 nearest to `± num / den`, a tie going to the even
significand, and from `overflowBound` on an infinity. -/
theorem roundF64_spec (neg : Bool) (num den : Nat) (hden : 0 < den) :
    ((num : ℚ) / den < overflowBound →
      ∃ m e : ℤ, roundF64 neg num den = F64.fin m e ∧
        IsNearestFloat64 ((if neg then -1 else 1) * ((num : ℚ) / den)) (F64.finVal m e)) ∧
    (overflowBound ≤ (num : ℚ) / den → roundF64 neg num den = F64.inf neg) := by
  by_cases h0 : num = 0
  · subst h0
    constructor
    · intro _
      refine ⟨0, 0, by simp [roundF64], ?_⟩
      simp only [Nat.cast_zero, zero_div, mul_zero, F64.finVal, Int.cast_zero, zero_mul]
      exact IsNearestFloat64.zero
    · intro h
      exfalso
      unfold overflowBound at h
      simp only [Nat.cast_zero, zero_div] at h
      have : (2 : ℚ) ^ 970 < 2 ^ 1024 := by
        apply pow_lt_pow_right₀ (by norm_num) (by norm_num)
      linarith
  · have hnum : 0 < num := Nat.pos_of_ne_zero h0
    obtain ⟨he, hlt, hnorm⟩ := ulpExp_spec num den hnum hden
    have hsp := scale_pos num den (ulpExp num den) hden
    obtain ⟨hm, hmeven⟩ :=
      divRoundEven_spec (scale num den (ulpExp num den)).1 (scale num den (ulpExp num den)).2 hsp
    rw [scale_val num den _ hden] at hm hmeven
    have hov := overflow_iff ((num : ℚ) / den) (ulpExp num den) _ hlt hnorm hm hmeven
    constructor
    · intro hq
      have hno : ¬ (971 < ulpExp num den ∨ (ulpExp num den = 971 ∧
          2 ^ 53 ≤ divRoundEven (scale num den (ulpExp num den)).1
            (scale num den (ulpExp num den)).2)) := fun hc => absurd (hov.mp hc) (not_le.mpr hq)
      have hn := nearest_core ((num : ℚ) / den) (ulpExp num den) _ he hlt hnorm hm hmeven hno
      obtain ⟨m1, e1, hd, hv⟩ := dyadic_val neg
        (divRoundEven (scale num den (ulpExp num den)).1 (scale num den (ulpExp num den)).2)
        (ulpExp num den)
      refine ⟨m1, e1, ?_, ?_⟩
      · simp only [roundF64, h0, if_false, hno, hd]
      · rw [hv]
        cases neg with
        | false => simpa using hn
        | true => simpa using isNearestFloat64_nearest_neg hn
    · intro hq
      simp only [roundF64, h0, if_false, hov.mpr hq, if_true]

/-! ## Scanning a decimal number -/

/-! The bytes of the character sets of `floatToken`. -/

theorem str_nN : str "nN" = [0x6E, 0x4E] := by decide
theorem str_aA : str "aA" = [0x61, 0x41] := by decide
theorem str_iI : str "iI" = [0x69, 0x49] := by decide
theorem str_fF : str "fF" = [0x66, 0x46] := by decide
theorem str_xX : str "xX" = [0x78, 0x58] := by decide
theorem str_sign : str "+-" = [0x2B, 0x2D] := by decide
theorem str_zero : str "0" = [0x30] := by decide
theorem str_point : str "." = [0x2E] := by decide
theorem str_plus : str "+" = [0x2B] := by decide
theorem str_minus : str "-" = [0x2D] := by decide
theorem str_exp : str "eEpP" = [0x65, 0x45, 0x70, 0x50] := by decide
theorem decimalDigits_eq :
    decimalDigits_ = [0x30, 0x31, 0x32, 0x33, 0x34, 0x35, 0x36, 0x37, 0x38, 0x39, 0x5F] := by
  decide

/-- The bounds of a decimal digit. -/
theorem isDigit_iff (c : Nat) : isDigit c = true ↔ 0x30 ≤ c ∧ c ≤ 0x39 := by
  simp [isDigit]

/-- The characters of `decimalDigits + "_"`. -/
theorem contains_decimalDigits (c : Nat) :
    decimalDigits_.contains c = (isDigit c || c == 0x5F) := by
  rw [decimalDigits_eq]
  by_cases h : isDigit c = true
  · have h' := (isDigit_iff c).mp h
    have : c = 0x30 ∨ c = 0x31 ∨ c = 0x32 ∨ c = 0x33 ∨ c = 0x34 ∨ c = 0x35 ∨ c = 0x36
        ∨ c = 0x37 ∨ c = 0x38 ∨ c = 0x39 := by omega
    rcases this with h | h | h | h | h | h | h | h | h | h <;> subst h <;> decide
  · have h' : ¬ (0x30 ≤ c ∧ c ≤ 0x39) := fun hh => h ((isDigit_iff c).mpr hh)
    simp only [Bool.not_eq_true] at h
    rw [h, Bool.false_or]
    by_cases hu : c = 0x5F
    · subst hu; decide
    · have : (c == 0x5F) = false := by simpa using hu
      rw [this]
      simp only [List.contains_cons, List.contains_nil, Bool.or_false]
      simp only [Bool.or_eq_false_iff, beq_eq_false_iff_ne, ne_eq]
      omega

/-- At the end of the input `accept` reads nothing. -/
theorem accept_nil (ok buf : GoString) : accept ok ⟨buf, []⟩ = (false, ⟨buf, []⟩) := rfl

/-- A next byte outside `ok` is left unread. -/
theorem accept_neg (ok buf : GoString) (c : Nat) (rest : GoString)
    (h : ok.contains c = false) : accept ok ⟨buf, c :: rest⟩ = (false, ⟨buf, c :: rest⟩) := by
  simp only [accept, h, Bool.false_eq_true, if_false]

/-- A next byte in `ok` is moved to the token. -/
theorem accept_pos (ok buf : GoString) (c : Nat) (rest : GoString)
    (h : ok.contains c = true) : accept ok ⟨buf, c :: rest⟩ = (true, ⟨buf ++ [c], rest⟩) := by
  simp only [accept, h, if_true]

/-- The bounds of a digit or point. -/
theorem isBody_bounds (c : Nat) (h : isBody c = true) : 0x2E ≤ c ∧ c ≤ 0x39 ∧ c ≠ 0x2F := by
  simp only [isBody, isDigit, Bool.or_eq_true, Bool.and_eq_true, decide_eq_true_eq,
    beq_iff_eq] at h
  omega

/-- Before a digit or a point `accept` reads nothing, when `ok` holds neither. -/
theorem accept_body (ok buf rest : GoString)
    (hok : ∀ c, isBody c = true → ok.contains c = false)
    (hrest : ∀ c ∈ rest, isBody c = true) :
    accept ok ⟨buf, rest⟩ = (false, ⟨buf, rest⟩) := by
  cases rest with
  | nil => rfl
  | cons c t => exact accept_neg _ _ _ _ (hok c (hrest c (List.mem_cons_self _ _)))

theorem body_not_nN (c : Nat) (h : isBody c = true) : (str "nN").contains c = false := by
  have := isBody_bounds c h
  rw [str_nN]
  simp only [List.contains_cons, List.contains_nil, Bool.or_false, Bool.or_eq_false_iff,
    beq_eq_false_iff_ne, ne_eq]
  omega

theorem body_not_iI (c : Nat) (h : isBody c = true) : (str "iI").contains c = false := by
  have := isBody_bounds c h
  rw [str_iI]
  simp only [List.contains_cons, List.contains_nil, Bool.or_false, Bool.or_eq_false_iff,
    beq_eq_false_iff_ne, ne_eq]
  omega

theorem body_not_xX (c : Nat) (h : isBody c = true) : (str "xX").contains c = false := by
  have := isBody_bounds c h
  rw [str_xX]
  simp only [List.contains_cons, List.contains_nil, Bool.or_false, Bool.or_eq_false_iff,
    beq_eq_false_iff_ne, ne_eq]
  omega

theorem body_not_sign (c : Nat) (h : isBody c = true) : (str "+-").contains c = false := by
  have := isBody_bounds c h
  rw [str_sign]
  simp only [List.contains_cons, List.contains_nil, Bool.or_false, Bool.or_eq_false_iff,
    beq_eq_false_iff_ne, ne_eq]
  omega

/-- The loop `for s.accept(digits) {}` reads a run of digits up to a byte that is none. -/
theorem acceptAll_digits (buf ds rest : GoString) (hds : ∀ c ∈ ds, isDigit c = true)
    (hrest : ∀ c, rest.head? = some c → decimalDigits_.contains c = false) :
    acceptAll decimalDigits_ ⟨buf, ds ++ rest⟩ = ⟨buf ++ ds, rest⟩ := by
  have hp : ∀ c ∈ ds, decimalDigits_.contains c = true := fun c hc => by
    rw [contains_decimalDigits, hds c hc]; rfl
  have hr : List.takeWhile decimalDigits_.contains rest = [] ∧
      List.dropWhile decimalDigits_.contains rest = rest := by
    cases rest with
    | nil => simp
    | cons r t =>
      have := hrest r rfl
      exact ⟨List.takeWhile_cons_of_neg (by simp only [this]; decide),
        List.dropWhile_cons_of_neg (by simp only [this]; decide)⟩
  simp only [acceptAll]
  rw [List.takeWhile_append_of_pos hp, List.dropWhile_append_of_pos hp, hr.1, hr.2]
  simp

/-- The digits, point and fraction of a decimal number are read whole. -/
theorem scanNumber_decimal (buf ds frac : GoString) (point : Bool)
    (hds : ∀ c ∈ ds, isDigit c = true) (hfrac : ∀ c ∈ frac, isDigit c = true) :
    scanNumber false ⟨buf, ds ++ (if point then 0x2E :: frac else [])⟩ =
      ⟨buf ++ (ds ++ (if point then 0x2E :: frac else [])), []⟩ := by
  unfold scanNumber
  simp only [Bool.false_eq_true, if_false]
  cases point with
  | false =>
    simp only [Bool.false_eq_true, if_false]
    rw [acceptAll_digits buf ds [] hds (by simp)]
    simp [accept_nil]
  | true =>
    simp only [if_true]
    rw [acceptAll_digits buf ds (0x2E :: frac) hds (by
      intro c hc
      simp only [List.head?_cons, Option.some.injEq] at hc
      subst hc
      decide)]
    rw [accept_pos _ _ _ _ (by decide)]
    simp only [if_true]
    have := acceptAll_digits (buf ++ ds ++ [0x2E]) frac [] hfrac (by simp)
    rw [List.append_nil] at this
    rw [this]
    simp [accept_nil]

/-- The conditions of `wellFormed`, as propositions. -/
theorem Decimal.wellFormed_iff (d : Decimal) :
    d.wellFormed = true ↔
      (d.sign = [] ∨ d.sign = [0x2B] ∨ d.sign = [0x2D]) ∧ (∀ c ∈ d.int, isDigit c = true) ∧
      (∀ c ∈ d.frac, isDigit c = true) ∧ (d.point = true ∨ d.frac = []) ∧
      d.int ++ d.frac ≠ [] := by
  simp only [Decimal.wellFormed, str_plus, str_minus, Bool.and_eq_true, Bool.or_eq_true,
    decide_eq_true_eq, List.all_eq_true, List.isEmpty_iff, Bool.not_eq_true',
    ← Bool.not_eq_true, or_assoc, ne_eq, and_assoc]

/-- The digits and the point part are digits and points. -/
theorem body_isBody (ds frac : GoString) (point : Bool)
    (hds : ∀ c ∈ ds, isDigit c = true) (hfrac : ∀ c ∈ frac, isDigit c = true) :
    ∀ c ∈ ds ++ pointPart point frac, isBody c = true := by
  intro c hc
  rw [List.mem_append] at hc
  rcases hc with hc | hc
  · simp [isBody, hds c hc]
  · cases point with
    | false => simp [pointPart] at hc
    | true =>
      simp only [pointPart, if_true, List.mem_cons] at hc
      rcases hc with hc | hc
      · subst hc; decide
      · simp [isBody, hfrac c hc]

/-- Before a digit or a point a chain of `accept` reads nothing, when its first set holds neither. -/
theorem acceptSeq_body (a b c buf rest : GoString)
    (hok : ∀ x, isBody x = true → a.contains x = false)
    (hrest : ∀ x ∈ rest, isBody x = true) :
    acceptSeq [a, b, c] ⟨buf, rest⟩ = (false, ⟨buf, rest⟩) := by
  simp only [acceptSeq, accept_body a buf rest hok hrest]

/-- After the test for the prefix `0x`, the digits, point and fraction of a decimal number are read whole. -/
theorem scanNumber_body (buf ds frac : GoString) (point : Bool)
    (hds : ∀ c ∈ ds, isDigit c = true) (hfrac : ∀ c ∈ frac, isDigit c = true) :
    scanNumber (acceptSeq [str "0", str "xX"] ⟨buf, ds ++ pointPart point frac⟩).1
        (acceptSeq [str "0", str "xX"] ⟨buf, ds ++ pointPart point frac⟩).2 =
      ⟨buf ++ (ds ++ pointPart point frac), []⟩ := by
  by_cases h0 : ∃ t, ds = 0x30 :: t
  · obtain ⟨t, rfl⟩ := h0
    have ht : ∀ c ∈ t, isDigit c = true := fun c hc => hds c (List.mem_cons_of_mem _ hc)
    have h1 : acceptSeq [str "0", str "xX"] ⟨buf, 0x30 :: t ++ pointPart point frac⟩ =
        (false, ⟨buf ++ [0x30], t ++ pointPart point frac⟩) := by
      simp only [acceptSeq, List.cons_append]
      rw [accept_pos _ _ _ _ (by decide)]
      simp only
      rw [accept_body _ _ _ body_not_xX (body_isBody t frac point ht hfrac)]
    rw [h1]
    simp only [pointPart]
    rw [scanNumber_decimal _ _ _ _ ht hfrac]
    simp
  · have h1 : acceptSeq [str "0", str "xX"] ⟨buf, ds ++ pointPart point frac⟩ =
        (false, ⟨buf, ds ++ pointPart point frac⟩) := by
      simp only [acceptSeq]
      cases hds' : ds ++ pointPart point frac with
      | nil => rfl
      | cons c t =>
        have hc : (str "0").contains c = false := by
          rw [str_zero]
          simp only [List.contains_cons, List.contains_nil, Bool.or_false, beq_eq_false_iff_ne,
            ne_eq]
          rintro rfl
          cases ds with
          | nil =>
            cases point with
            | false => simp [pointPart] at hds'
            | true =>
              simp only [pointPart, if_true, List.nil_append, List.cons.injEq] at hds'
              omega
          | cons x xs =>
            simp only [List.cons_append, List.cons.injEq] at hds'
            exact h0 ⟨xs, by rw [hds'.1]⟩
        rw [accept_neg _ _ _ _ hc]
    rw [h1]
    simp only [pointPart]
    exact scanNumber_decimal _ _ _ _ hds hfrac

/-- The scanner reads a decimal number as one token and leaves nothing unread. -/
theorem floatToken_decimal (d : Decimal) (h : d.wellFormed = true) :
    floatToken d.text = (d.text, []) := by
  obtain ⟨hs, hint, hfrac, -, hne⟩ := (Decimal.wellFormed_iff d).mp h
  have hb := body_isBody d.int d.frac d.point hint hfrac
  have htext : d.text = d.sign ++ (d.int ++ pointPart d.point d.frac) := rfl
  have hbne : d.int ++ pointPart d.point d.frac ≠ [] := by
    intro h0
    rw [List.append_eq_nil] at h0
    apply hne
    rw [h0.1]
    obtain ⟨-, h2⟩ := h0
    cases hp : d.point with
    | false =>
      have := (Decimal.wellFormed_iff d).mp h
      rcases this.2.2.2.1 with h3 | h3
      · rw [hp] at h3; cases h3
      · simp [h3]
    | true => simp [pointPart, hp] at h2
  -- the state after the optional sign
  have hsign : (accept (str "+-") ⟨[], d.text⟩).2 = ⟨d.sign, d.int ++ pointPart d.point d.frac⟩ ∧
      acceptSeq [str "nN", str "aA", str "nN"] ⟨[], d.text⟩ = (false, ⟨[], d.text⟩) := by
    rw [htext]
    rcases hs with hs | hs | hs
    · rw [hs, List.nil_append, accept_body _ _ _ body_not_sign hb]
      exact ⟨rfl, acceptSeq_body _ _ _ _ _ body_not_nN hb⟩
    · rw [hs]
      simp only [List.cons_append, List.nil_append, acceptSeq]
      rw [accept_pos _ _ _ _ (by decide), accept_neg _ _ _ _ (by decide)]
      exact ⟨rfl, rfl⟩
    · rw [hs]
      simp only [List.cons_append, List.nil_append, acceptSeq]
      rw [accept_pos _ _ _ _ (by decide), accept_neg _ _ _ _ (by decide)]
      exact ⟨rfl, rfl⟩
  unfold floatToken
  simp only [hsign.2, Bool.false_eq_true, if_false, hsign.1,
    acceptSeq_body _ _ _ _ _ body_not_iI hb, scanNumber_body _ _ _ _ hint hfrac]
  rw [htext]

/-- A sign, a point or a digit is no white space: `SkipSpace` skips nothing. -/
theorem skipSpace_plain (c : Nat) (rest : GoString) (hc : 0x2B ≤ c ∧ c ≤ 0x39) :
    SkipSpace (c :: rest) = some (c :: rest) := by
  have h1 : c < 0x80 := by omega
  have h2 : isSpace c = false := by
    simp only [isSpace, Bool.or_eq_false_iff, Bool.and_eq_false_iff, decide_eq_false_iff_not]
    omega
  have h3 : DecodeRune (c :: rest) = (c, 1) := by
    simp only [DecodeRune, h1, if_true]
  have h4 : ¬ c = 0x0D := by omega
  have h5 : ¬ c = 0x0A := by omega
  simp only [SkipSpace, List.length_cons, skipSpaceAux, h3, h2, h4, h5, false_and, if_false,
    Bool.not_false, if_true]

/-- The bytes of a decimal number are signs, points and digits. -/
theorem isPlain_text (d : Decimal) (h : d.wellFormed = true) :
    ∀ c ∈ d.text, 0x2B ≤ c ∧ c ≤ 0x39 := by
  obtain ⟨hs, hint, hfrac, -, -⟩ := (Decimal.wellFormed_iff d).mp h
  intro c hc
  have hc' : c ∈ d.sign ++ (d.int ++ pointPart d.point d.frac) := hc
  rw [List.mem_append] at hc'
  rcases hc' with hc' | hc'
  · rcases hs with hs | hs | hs <;> rw [hs] at hc' <;> simp at hc' <;> omega
  · have := isBody_bounds c (body_isBody _ _ _ hint hfrac c hc')
    omega

/-- A decimal number has no `p`: `convertFloat` is `ParseFloat`. -/
theorem convertFloat_decimal (d : Decimal) (h : d.wellFormed = true) :
    convertFloat d.text = ParseFloat d.text := by
  have hp : d.text.contains 0x70 = false := by
    rw [← Bool.not_eq_true, List.contains, List.elem_iff]
    intro hm
    have := isPlain_text d h _ hm
    omega
  simp only [convertFloat, hp, Bool.false_and, Bool.false_eq_true, if_false]

/-- The function `lower` leaves a digit or point as it is. -/
theorem lower_body (c : Nat) (h : isBody c = true) : lower c = c := by
  have := isBody_bounds c h
  have h1 : c / 0x20 = 1 := by omega
  simp [lower, h1]

/-- A decimal number is no `NaN`, `Inf` or `Infinity`. -/
theorem special_decimal (d : Decimal) (h : d.wellFormed = true) : special d.text = none := by
  obtain ⟨hs, hint, hfrac, -, -⟩ := (Decimal.wellFormed_iff d).mp h
  have hb := body_isBody d.int d.frac d.point hint hfrac
  have hinf : ∀ neg nsign, specialInf neg nsign (d.int ++ pointPart d.point d.frac) = none := by
    intro neg nsign
    have h0 : commonPrefixLenIgnoreCase (d.int ++ pointPart d.point d.frac) (str "infinity")
        = 0 := by
      cases hbody : d.int ++ pointPart d.point d.frac with
      | nil => rfl
      | cons c t =>
        have hc := isBody_bounds c (hb c (by rw [hbody]; exact List.mem_cons_self _ _))
        have hstr : str "infinity" = 0x69 :: str "nfinity" := by decide
        rw [hstr]
        simp only [commonPrefixLenIgnoreCase]
        have h1 : ¬ (0x41 ≤ c ∧ c ≤ 0x5A) := by omega
        have h2 : ¬ c = 0x69 := by omega
        simp only [h1, if_false, h2]
    simp [specialInf, h0]
  have htext : d.text = d.sign ++ (d.int ++ pointPart d.point d.frac) := rfl
  rw [htext]
  rcases hs with hs | hs | hs
  · rw [hs, List.nil_append]
    cases hbody : d.int ++ pointPart d.point d.frac with
    | nil => rfl
    | cons c t =>
      have hc := isBody_bounds c (hb c (by rw [hbody]; exact List.mem_cons_self _ _))
      have h1 : ¬ c = 0x2B := by omega
      have h2 : ¬ c = 0x2D := by omega
      have h3 : ¬ (c = 0x69 ∨ c = 0x49) := by omega
      have h4 : ¬ (c = 0x6E ∨ c = 0x4E) := by omega
      simp only [special, h1, h2, h3, h4, if_false]
  · rw [hs]
    simp only [List.cons_append, List.nil_append, special, if_true, hinf]
  · rw [hs]
    simp only [List.cons_append, List.nil_append, special, if_true, hinf]
    simp

/-- The digit loop of `readFloat` over a run of decimal digits. -/
theorem readMant_digits (ds rest : GoString) (st : Mant)
    (hds : ∀ c ∈ ds, isDigit c = true) (hinv : st.nd = 0 → st.mantissa = 0) :
    ∃ st1 : Mant, readMant 10 (ds ++ rest) st = readMant 10 rest st1 ∧
      st1.sawdot = st.sawdot ∧ st1.underscores = st.underscores ∧
      st1.sawdigits = (st.sawdigits || !ds.isEmpty) ∧
      st1.mantissa = ds.foldl (fun n c => n * 10 + (c - 0x30)) st.mantissa ∧
      st1.dp - st1.nd = st.dp - st.nd - ds.length ∧
      (st1.nd = 0 → st1.mantissa = 0) := by
  induction ds generalizing st with
  | nil => exact ⟨st, rfl, rfl, rfl, by simp, rfl, by simp, hinv⟩
  | cons c t ih =>
    have hc := hds c (List.mem_cons_self _ _)
    have hc' := (isDigit_iff c).mp hc
    have ht : ∀ x ∈ t, isDigit x = true := fun x hx => hds x (List.mem_cons_of_mem _ hx)
    have h1 : ¬ c = 0x5F := by omega
    have h2 : ¬ c = 0x2E := by omega
    have step : readMant 10 (c :: (t ++ rest)) st =
        if c = 0x30 ∧ st.nd = 0 then
          readMant 10 (t ++ rest) { st with sawdigits := true, dp := st.dp - 1 }
        else
          readMant 10 (t ++ rest)
            { st with sawdigits := true, nd := st.nd + 1,
                      mantissa := st.mantissa * 10 + (c - 0x30) } := by
      rw [readMant]
      simp only [h1, h2, hc, if_false, if_true]
    by_cases hz : c = 0x30 ∧ st.nd = 0
    · obtain ⟨st1, e1, e2, e3, e4, e5, e6, e7⟩ :=
        ih { st with sawdigits := true, dp := st.dp - 1 } ht hinv
      refine ⟨st1, ?_, e2, e3, ?_, ?_, ?_, e7⟩
      · rw [List.cons_append, step, if_pos hz]
        exact e1
      · rw [e4]; simp
      · rw [e5]
        simp only [List.foldl_cons]
        rw [hinv hz.2, hz.1]
      · rw [e6]
        simp only [List.length_cons]
        push_cast
        ring
    · obtain ⟨st1, e1, e2, e3, e4, e5, e6, e7⟩ :=
        ih { st with sawdigits := true, nd := st.nd + 1,
                     mantissa := st.mantissa * 10 + (c - 0x30) } ht (by simp)
      refine ⟨st1, ?_, e2, e3, ?_, ?_, ?_, e7⟩
      · rw [List.cons_append, step, if_neg hz]
        exact e1
      · rw [e4]; simp
      · rw [e5]
        simp only [List.foldl_cons]
      · rw [e6]
        simp only [List.length_cons]
        push_cast
        ring

/-- A text that starts with a digit or a point has no sign to strip. -/
theorem stripSign_body (body : GoString) (hb : ∀ c ∈ body, isBody c = true) :
    stripSign body = body := by
  cases body with
  | nil => rfl
  | cons c t =>
    have hc := isBody_bounds c (hb c (List.mem_cons_self _ _))
    unfold stripSign
    split
    · rename_i h; simp only [List.cons.injEq] at h; omega
    · rename_i h; simp only [List.cons.injEq] at h; omega
    · rfl

/-- Digits and points hold no base prefix. -/
theorem hexPrefix_body (body : GoString) (hb : ∀ c ∈ body, isBody c = true) :
    hexPrefix body = false := by
  unfold hexPrefix
  split
  · rename_i c _ _
    have hc : isBody c = true := hb c (by simp)
    have := isBody_bounds c hc
    rw [lower_body c hc]
    simp only [decide_eq_false_iff_not]
    omega
  · rfl

/-- The digit loop of `readFloat` over the digits and the point part of a decimal number: all is consumed, the mantissa is the value of the digits, and the point stands before the fraction digits. -/
theorem readMant_decimal (d : Decimal) (h : d.wellFormed = true) :
    ∃ st : Mant, readMant 10 (d.int ++ pointPart d.point d.frac) ⟨false, false, 0, 0, 0, false⟩
        = (st, []) ∧
      st.sawdigits = true ∧ st.underscores = false ∧
      st.mantissa = digitsValue (d.int ++ d.frac) ∧
      (if st.sawdot then st.dp else (st.nd : Int)) - st.nd = -(d.frac.length : Int) := by
  obtain ⟨hs, hint, hfrac, hpt, hne⟩ := (Decimal.wellFormed_iff d).mp h
  obtain ⟨st1, e1, e2, e3, e4, e5, e6, e7⟩ :=
    readMant_digits d.int (pointPart d.point d.frac) ⟨false, false, 0, 0, 0, false⟩ hint
      (fun _ => rfl)
  dsimp only at e2 e3 e4 e5 e6
  cases hp : d.point with
  | false =>
    rw [hp] at e1
    have hf : d.frac = [] := by
      rcases hpt with h1 | h1
      · rw [hp] at h1; cases h1
      · exact h1
    have hi : d.int ≠ [] := by
      intro h0; apply hne; rw [h0, hf]; rfl
    refine ⟨st1, ?_, ?_, e3, ?_, ?_⟩
    · rw [e1]; rfl
    · rw [e4]; simpa [List.isEmpty_iff] using hi
    · rw [e5, hf, List.append_nil]; rfl
    · rw [e2, hf]; simp
  | true =>
    rw [hp] at e1
    obtain ⟨st2, f1, f2, f3, f4, f5, f6, f7⟩ :=
      readMant_digits d.frac [] { st1 with sawdot := true, dp := st1.nd } hfrac e7
    dsimp only at f2 f3 f4 f5 f6
    have step : readMant 10 (0x2E :: d.frac) st1 =
        readMant 10 d.frac { st1 with sawdot := true, dp := st1.nd } := by
      rw [readMant]
      simp only [e2, Bool.false_eq_true, if_false, if_true,
        show ¬ ((0x2E : Nat) = 0x5F) by decide]
    rw [List.append_nil] at f1
    refine ⟨st2, ?_, ?_, ?_, ?_, ?_⟩
    · rw [e1]
      simp only [pointPart, if_true]
      rw [step, f1]
      rfl
    · rw [f4, e4]
      have : d.int ≠ [] ∨ d.frac ≠ [] := by
        by_contra hcon
        push_neg at hcon
        apply hne; rw [hcon.1, hcon.2]; rfl
      rcases this with h1 | h1
      · have : d.int.isEmpty = false := by simpa [List.isEmpty_iff] using h1
        simp [this]
      · have : d.frac.isEmpty = false := by simpa [List.isEmpty_iff] using h1
        simp [this]
    · rw [f3, e3]
    · rw [f5, e5, digitsValue, List.foldl_append]
    · rw [f2]
      simp only [if_true]
      rw [f6]
      simp

/-- The function `readFloat` on a decimal number: the value of all its digits, scaled by the number of fraction digits. -/
theorem readFloat_decimal (d : Decimal) (h : d.wellFormed = true) :
    readFloat d.text =
      some ⟨digitsValue (d.int ++ d.frac),
        if digitsValue (d.int ++ d.frac) ≠ 0 then -(d.frac.length : Int) else 0,
        decide (d.sign = [0x2D]), false, d.text.length⟩ := by
  obtain ⟨hs, hint, hfrac, hpt, hne⟩ := (Decimal.wellFormed_iff d).mp h
  have hb := body_isBody d.int d.frac d.point hint hfrac
  obtain ⟨st, r1, r2, r3, r4, r5⟩ := readMant_decimal d h
  have htext : d.text = d.sign ++ (d.int ++ pointPart d.point d.frac) := rfl
  have hstrip : stripSign d.text = d.int ++ pointPart d.point d.frac := by
    rw [htext]
    rcases hs with hs | hs | hs
    · rw [hs, List.nil_append, stripSign_body _ hb]
    · rw [hs]; rfl
    · rw [hs]; rfl
  have hneg : decide (d.text.head? = some 0x2D) = decide (d.sign = [0x2D]) := by
    rw [htext]
    rcases hs with hs | hs | hs
    · rw [hs, List.nil_append]
      cases hbody : d.int ++ pointPart d.point d.frac with
      | nil => simp
      | cons c t =>
        have hc := isBody_bounds c (hb c (by rw [hbody]; exact List.mem_cons_self _ _))
        have : ¬ c = 0x2D := by omega
        simp [this]
    · rw [hs]; simp
    · rw [hs]; simp
  unfold readFloat
  simp only [hstrip, hexPrefix_body _ hb, Bool.false_eq_true, if_false, r1, r2, Bool.not_true,
    readFloatEnd, r3, Bool.false_and, List.length_nil, Nat.sub_zero, hneg, r4, r5]

/-- Zero needs no rounding. -/
theorem roundF64_zero (neg : Bool) (den : Nat) : roundF64 neg 0 den = F64.fin 0 0 := by
  simp [roundF64]

/-- The function `ParseFloat` on a decimal number rounds the value of all its digits over
the power of ten of the count of its fraction digits, and reports an error for an
infinity. -/
theorem ParseFloat_decimal (d : Decimal) (h : d.wellFormed = true) :
    ParseFloat d.text =
      match roundF64 (decide (d.sign = [0x2D])) (digitsValue (d.int ++ d.frac))
          (10 ^ d.frac.length) with
      | F64.inf _ => none
      | v => some v := by
  have hv : (if (0 : Int) ≤ (if digitsValue (d.int ++ d.frac) ≠ 0
          then -(d.frac.length : Int) else 0)
        then roundF64 (decide (d.sign = [0x2D]))
          (digitsValue (d.int ++ d.frac) *
            10 ^ (if digitsValue (d.int ++ d.frac) ≠ 0
              then -(d.frac.length : Int) else 0).toNat) 1
        else roundF64 (decide (d.sign = [0x2D])) (digitsValue (d.int ++ d.frac))
          (10 ^ (-(if digitsValue (d.int ++ d.frac) ≠ 0
              then -(d.frac.length : Int) else 0)).toNat)) =
      roundF64 (decide (d.sign = [0x2D])) (digitsValue (d.int ++ d.frac))
        (10 ^ d.frac.length) := by
    by_cases hM : digitsValue (d.int ++ d.frac) = 0
    · simp [hM, roundF64_zero]
    · simp only [ne_eq, hM, not_false_eq_true, if_true]
      by_cases hf : d.frac.length = 0
      · simp [hf]
      · have hneg : ¬ (0 : Int) ≤ -(d.frac.length : Int) := by omega
        simp only [hneg, if_false, neg_neg, Int.toNat_ofNat]
  unfold ParseFloat
  simp only [special_decimal d h, readFloat_decimal d h, ne_eq, not_true_eq_false, if_false,
    Bool.false_eq_true]
  rw [hv]
  cases roundF64 (decide (d.sign = [0x2D])) (digitsValue (d.int ++ d.frac))
    (10 ^ d.frac.length) <;> rfl

/-- The call `Sscanf(tok, "%f", &f)` on a decimal number `tok` reads the whole of it and
returns what `ParseFloat` returns. -/
theorem Sscanf_decimal (d : Decimal) (h : d.wellFormed = true) :
    Sscanf d.text =
      match roundF64 (decide (d.sign = [0x2D])) (digitsValue (d.int ++ d.frac))
          (10 ^ d.frac.length) with
      | F64.inf _ => none
      | v => some v := by
  have hplain := isPlain_text d h
  have hne : d.text ≠ [] := by
    obtain ⟨-, -, -, -, hne⟩ := (Decimal.wellFormed_iff d).mp h
    intro h0
    have h1 : d.sign ++ (d.int ++ pointPart d.point d.frac) = [] := h0
    simp only [List.append_eq_nil] at h1
    apply hne
    rw [h1.2.1]
    cases hp : d.point with
    | false =>
      have := (Decimal.wellFormed_iff d).mp h
      rcases this.2.2.2.1 with h3 | h3
      · rw [hp] at h3; cases h3
      · simp [h3]
    | true =>
      have := h1.2.2
      simp [pointPart, hp] at this
  obtain ⟨c, rest, hcr⟩ := List.exists_cons_of_ne_nil hne
  have hskip : SkipSpace d.text = some d.text := by
    rw [hcr]
    exact skipSpace_plain c rest (hplain c (by rw [hcr]; exact List.mem_cons_self _ _))
  unfold Sscanf
  simp only [hskip, hne, if_false, floatToken_decimal d h, convertFloat_decimal d h,
    ParseFloat_decimal d h]

/-- The accumulation of digits by the scanner is the value of the digit string. -/
theorem foldl_digits (ds : GoString) (a : ℕ) :
    ds.foldl (fun n c => n * 10 + (c - 0x30)) a = a * 10 ^ ds.length + digitsNat ds := by
  induction ds generalizing a with
  | nil => simp [digitsNat]
  | cons c t ih =>
    simp only [List.foldl_cons, ih, digitsNat, List.map_cons, List.reverse_cons,
      Nat.ofDigits_append, List.length_reverse, List.length_map, Nat.ofDigits_singleton,
      List.length_cons]
    ring

/-- The mantissa over the power of ten that `readFloat` finds for a decimal number is the
integer part plus the fraction part. -/
theorem decimal_ratio (d : Decimal) :
    ((digitsValue (d.int ++ d.frac) : ℕ) : ℚ) / ((10 ^ d.frac.length : ℕ) : ℚ) =
      (digitsNat d.int : ℚ) + (digitsNat d.frac : ℚ) / 10 ^ d.frac.length := by
  have h1 : digitsValue (d.int ++ d.frac) =
      digitsNat d.int * 10 ^ d.frac.length + digitsNat d.frac := by
    unfold digitsValue
    rw [List.foldl_append, foldl_digits d.int 0, foldl_digits d.frac]
    simp
  rw [h1]
  push_cast
  field_simp

theorem Decimal.abs_toRat (d : Decimal) :
    |d.toRat| = ((digitsValue (d.int ++ d.frac) : ℕ) : ℚ) / ((10 ^ d.frac.length : ℕ) : ℚ) := by
  rw [decimal_ratio]
  unfold Decimal.toRat
  have hnn : (0 : ℚ) ≤ (digitsNat d.int : ℚ) + (digitsNat d.frac : ℚ) / 10 ^ d.frac.length := by
    positivity
  split_ifs
  · rw [neg_one_mul, abs_neg, abs_of_nonneg hnn]
  · rw [one_mul, abs_of_nonneg hnn]

/-- The call `Sscanf(tok, "%f", &f)` on a decimal number `tok`: below `overflowBound` it
stores the float64 nearest to the number, ties to the even significand, and from
`overflowBound` on it reports an error. -/
theorem Sscanf_decimal_spec (d : Decimal) (h : d.wellFormed = true) :
    (|d.toRat| < overflowBound →
      ∃ m e : ℤ, Sscanf d.text = some (F64.fin m e) ∧
        IsNearestFloat64 d.toRat (F64.finVal m e)) ∧
    (overflowBound ≤ |d.toRat| → Sscanf d.text = none) := by
  obtain ⟨r1, r2⟩ := roundF64_spec (decide (d.sign = [0x2D]))
    (digitsValue (d.int ++ d.frac)) (10 ^ d.frac.length) (by positivity)
  rw [← Decimal.abs_toRat] at r1 r2
  have hsign : (if decide (d.sign = [0x2D]) = true then (-1 : ℚ) else 1) * |d.toRat| =
      d.toRat := by
    have hnn : (0 : ℚ) ≤ (digitsNat d.int : ℚ) + (digitsNat d.frac : ℚ) / 10 ^ d.frac.length := by
      positivity
    unfold Decimal.toRat
    rw [str_minus]
    simp only [decide_eq_true_eq]
    split_ifs
    · rw [neg_one_mul, neg_one_mul, abs_neg, abs_of_nonneg hnn]
    · rw [one_mul, one_mul, abs_of_nonneg hnn]
  constructor
  · intro hb
    obtain ⟨m, e, hr, hn⟩ := r1 hb
    rw [hsign] at hn
    exact ⟨m, e, by rw [Sscanf_decimal d h, hr], hn⟩
  · intro hb
    rw [Sscanf_decimal d h, r2 hb]

/-- The value of the digit 1 followed by zeros. -/
theorem digitsNat_one_zeros (n : ℕ) : digitsNat (0x31 :: List.replicate n 0x30) = 10 ^ n := by
  have h0 : ∀ k : ℕ, Nat.ofDigits 10 (List.replicate k 0) = 0 := by
    intro k
    induction k with
    | zero => rfl
    | succ k ih => simp [List.replicate_succ, Nat.ofDigits_cons, ih]
  simp only [digitsNat, List.map_cons, List.map_replicate, List.reverse_cons,
    List.reverse_replicate, Nat.ofDigits_append, List.length_replicate, Nat.ofDigits_singleton]
  rw [show (0x30 - 0x30 : ℕ) = 0 by norm_num, h0]
  norm_num

set_option exponentiation.threshold 1100 in
/-- The rational values of the decimal numbers `12.5`, `3`, `0.1` and 1 followed by 309
zeros. -/
theorem toRat_samples :
    Decimal.toRat ⟨[], str "12", true, str "5"⟩ = 25 / 2 ∧
    Decimal.toRat ⟨[], str "3", false, []⟩ = 3 ∧
    Decimal.toRat ⟨[], str "0", true, str "1"⟩ = 1 / 10 ∧
    bigDecimal.toRat = 10 ^ 309 := by
  have hs : ¬ (([] : GoString) = str "-") := by decide
  have h0 : str "0" = [0x30] := by decide
  have h1 : str "1" = [0x31] := by decide
  have h3 : str "3" = [0x33] := by decide
  have h5 : str "5" = [0x35] := by decide
  have h12 : str "12" = [0x31, 0x32] := by decide
  refine ⟨?_, ?_, ?_, ?_⟩
  · simp only [Decimal.toRat, hs, if_false, h12, h5, digitsNat]
    norm_num [Nat.ofDigits_cons]
  · simp only [Decimal.toRat, hs, if_false, h3, digitsNat]
    norm_num
  · simp only [Decimal.toRat, hs, if_false, h0, h1, digitsNat]
    norm_num
  · simp only [Decimal.toRat, bigDecimal, hs, if_false, digitsNat_one_zeros]
    norm_num [digitsNat]

/-! ## The claims about `processLine` and `serveData` -/

/-- An open field is the start of the first field returned. -/
theorem fieldsAux_head (fuel : Nat) (s cur : GoString) (hcur : cur ≠ []) :
    ∃ f fs, fieldsAux fuel s cur = f :: fs ∧ cur <+: f := by
  induction fuel generalizing s cur with
  | zero => exact ⟨cur, [], by simp [fieldsAux, hcur], List.prefix_refl _⟩
  | succ n ih =>
    cases s with
    | nil => exact ⟨cur, [], by simp [fieldsAux, hcur], List.prefix_refl _⟩
    | cons b rest =>
      by_cases hsp : isSpace (DecodeRune (b :: rest)).1 = true
      · exact ⟨cur, fieldsAux n ((b :: rest).drop (DecodeRune (b :: rest)).2) [],
          by simp only [fieldsAux, hsp, hcur, if_true, if_false], List.prefix_refl _⟩
      · obtain ⟨f, fs, h1, h2⟩ := ih ((b :: rest).drop (DecodeRune (b :: rest)).2)
          (cur ++ (b :: rest).take (DecodeRune (b :: rest)).2) (by simp [hcur])
        refine ⟨f, fs, ?_, (List.prefix_append _ _).trans h2⟩
        simp only [fieldsAux, hsp, Bool.false_eq_true, if_false]
        exact h1

/-- A line that begins with `#` has a first field that begins with `#`. -/
theorem Fields_comment (rest : GoString) :
    ∃ f fs, Fields (0x23 :: rest) = (0x23 :: f) :: fs := by
  have hd : DecodeRune (0x23 :: rest) = (0x23, 1) := by simp [DecodeRune]
  obtain ⟨f, fs, h1, h2⟩ := fieldsAux_head rest.length rest [0x23] (by simp)
  obtain ⟨t, rfl⟩ := h2
  refine ⟨t, fs, ?_⟩
  simp only [Fields, List.length_cons, fieldsAux, hd]
  simpa [isSpace] using h1

/-- The test `strings.HasPrefix(line, "#")`. -/
theorem HasPrefix_comment (line : GoString) :
    HasPrefix line (str "#") = true ↔ ∃ rest, line = 0x23 :: rest := by
  have : str "#" = [0x23] := by decide
  rw [this]
  cases line with
  | nil => simp [HasPrefix, List.isPrefixOf]
  | cons c t =>
    simp only [HasPrefix, List.isPrefixOf, Bool.and_true, beq_iff_eq, List.cons.injEq,
      exists_eq_right']
    exact eq_comm

/-- A line of two fields whose first is the vibration flag `Y` or `N`: the reading is
stored when `Sscanf` reads an amperage from the second field, and the invalid amperage is
logged when it reports an error. -/
theorem processLine_two_fields (record : GoString) (st : State) (t1 t2 : GoString)
    (hf : Fields (TrimSpace record) = [t1, t2]) (ht : t1 = str "Y" ∨ t1 = str "N") :
    processLine (TrimSpace record) st =
      match Sscanf t2 with
      | none => { st with log := st.log ++ [Diagnostic.invalidAmperage t2] }
      | some a => { st with currentData := ⟨decide (t1 = str "Y"), a⟩ } := by
  have h1 : HasPrefix (TrimSpace record) (str "#") = false := by
    rw [← Bool.not_eq_true, HasPrefix_comment]
    rintro ⟨rest, hr⟩
    obtain ⟨f, fs, h2⟩ := Fields_comment rest
    rw [hr, h2] at hf
    simp only [List.cons.injEq] at hf
    have hY : str "Y" = [0x59] := by decide
    have hN : str "N" = [0x4E] := by decide
    rcases ht with ht | ht
    · rw [ht, hY] at hf
      simp at hf
    · rw [ht, hN] at hf
      simp at hf
  have h2 : (TrimSpace record).isEmpty = false := by
    cases hl : TrimSpace record with
    | nil => rw [hl] at hf; simp [Fields, fieldsAux] at hf
    | cons c t => rfl
  have hNY : ¬ str "N" = str "Y" := by decide
  unfold processLine
  rcases ht with ht | ht
  · cases hs : Sscanf t2 <;> simp [h1, h2, hf, ht, hs]
  · cases hs : Sscanf t2 <;> simp [h1, h2, hf, ht, hs, hNY]

/-- A record of a vibration flag and a decimal number: below `overflowBound` the reading
stored is the float64 nearest to the number, and from `overflowBound` on the record is
rejected for its amperage. -/
theorem processLine_decimal (record : GoString) (st : State) (t1 : GoString) (d : Decimal)
    (hf : Fields (TrimSpace record) = [t1, d.text]) (ht : t1 = str "Y" ∨ t1 = str "N")
    (hd : d.wellFormed = true) :
    (|d.toRat| < overflowBound →
      ∃ m e : ℤ,
        processLine (TrimSpace record) st =
          { st with currentData := ⟨decide (t1 = str "Y"), F64.fin m e⟩ } ∧
        IsNearestFloat64 d.toRat (F64.finVal m e)) ∧
    (overflowBound ≤ |d.toRat| →
      processLine (TrimSpace record) st =
        { st with log := st.log ++ [Diagnostic.invalidAmperage d.text] }) := by
  have hp := processLine_two_fields record st t1 d.text hf ht
  obtain ⟨s1, s2⟩ := Sscanf_decimal_spec d hd
  constructor
  · intro hb
    obtain ⟨m, e, hs, hn⟩ := s1 hb
    refine ⟨m, e, ?_, hn⟩
    rw [hp, hs]
  · intro hb
    rw [hp, s2 hb]

/-- C3 (as amended): a record whose trimmed text is a vibration flag `Y` or `N` and a
decimal number of value `v`. When `|v|` is below `2 ^ 1024 - 2 ^ 970` the stored reading is
replaced by the flag and the float64 nearest to `v` (ties to the even significand), which is
`v` itself when `v` is a float64, and nothing is logged. Otherwise the record is rejected
with the invalid-amperage diagnostic and the stored reading stays. -/
theorem processLine_stores (record : GoString) (st : State) (t1 : GoString) (d : Decimal)
    (hf : Fields (TrimSpace record) = [t1, d.text]) (ht : t1 = str "Y" ∨ t1 = str "N")
    (hd : d.wellFormed = true) :
    (|d.toRat| < overflowBound →
      ∃ m e : ℤ,
        processLine (TrimSpace record) st =
          { st with currentData := ⟨decide (t1 = str "Y"), F64.fin m e⟩ } ∧
        IsNearestFloat64 d.toRat (F64.finVal m e) ∧
        (IsFloat64 d.toRat → F64.finVal m e = d.toRat)) ∧
    (overflowBound ≤ |d.toRat| →
      processLine (TrimSpace record) st =
        { st with log := st.log ++ [Diagnostic.invalidAmperage d.text] }) := by
  obtain ⟨p1, p2⟩ := processLine_decimal record st t1 d hf ht hd
  refine ⟨fun hb => ?_, p2⟩
  obtain ⟨m, e, hs, hn⟩ := p1 hb
  exact ⟨m, e, hs, hn, fun hq => hn.eq_of_isFloat64 hq⟩

/-- C3, at the records `Y 12.5` and `N 3`: the amperage stored has the value 12.5, and 3,
and the states are the ones with the readings `{true, 12.5}` and `{false, 3}`. -/
theorem processLine_stores_witness :
    (∃ m e : ℤ,
      processLine (TrimSpace (str "Y 12.5")) State.init =
        { State.init with currentData := ⟨true, F64.fin m e⟩ } ∧
      F64.finVal m e = 25 / 2) ∧
    processLine (TrimSpace (str "Y 12.5")) State.init =
      { State.init with currentData := ⟨true, F64.fin 25 (-1)⟩ } ∧
    (∃ m e : ℤ,
      processLine (TrimSpace (str " N 3\r")) State.init =
        { State.init with currentData := ⟨false, F64.fin m e⟩ } ∧
      F64.finVal m e = 3) ∧
    processLine (TrimSpace (str " N 3\r")) State.init =
      { State.init with currentData := ⟨false, F64.ofNat 3⟩ } := by
  have hB : (25 / 2 : ℚ) < overflowBound ∧ (3 : ℚ) < overflowBound := by
    unfold overflowBound
    constructor <;> norm_num
  refine ⟨?_, by decide, ?_, by decide⟩
  · obtain ⟨m, e, hs, -, hx⟩ :=
      (processLine_stores (str "Y 12.5") State.init (str "Y") ⟨[], str "12", true, str "5"⟩
        (by decide) (by decide) (by decide)).1
        (by rw [toRat_samples.1, abs_of_pos (by norm_num)]; exact hB.1)
    refine ⟨m, e, hs, ?_⟩
    rw [hx (by rw [toRat_samples.1]; exact ⟨25, -1, by norm_num, by norm_num, by norm_num,
      by norm_num⟩), toRat_samples.1]
  · obtain ⟨m, e, hs, -, hx⟩ :=
      (processLine_stores (str " N 3\r") State.init (str "N") ⟨[], str "3", false, []⟩
        (by decide) (by decide) (by decide)).1
        (by rw [toRat_samples.2.1, abs_of_pos (by norm_num)]; exact hB.2)
    refine ⟨m, e, hs, ?_⟩
    rw [hx (by rw [toRat_samples.2.1]; exact ⟨3, 0, by norm_num, by norm_num, by norm_num,
      by norm_num⟩), toRat_samples.2.1]

set_option maxRecDepth 100000 in
/-- C3, as stated, fails in two ways. The record `Y` with the decimal number 1 followed by
309 zeros, of value `10 ^ 309`, is rejected with the invalid-amperage diagnostic: no float64
is that large. The record `Y 0.1` stores an amperage whose value is not `1 / 10`: no float64
has that value. -/
theorem processLine_stores_counterexample :
    Fields (TrimSpace (str "Y " ++ bigDecimal.text)) = [str "Y", bigDecimal.text] ∧
    bigDecimal.wellFormed = true ∧
    bigDecimal.toRat = 10 ^ 309 ∧
    processLine (TrimSpace (str "Y " ++ bigDecimal.text)) State.init =
      { State.init with log := [Diagnostic.invalidAmperage bigDecimal.text] } ∧
    Fields (TrimSpace (str "Y 0.1")) = [str "Y", Decimal.text ⟨[], str "0", true, str "1"⟩] ∧
    Decimal.toRat ⟨[], str "0", true, str "1"⟩ = 1 / 10 ∧
    processLine (TrimSpace (str "Y 0.1")) State.init =
      { State.init with currentData := ⟨true, F64.fin 3602879701896397 (-55)⟩ } ∧
    F64.finVal 3602879701896397 (-55) ≠ 1 / 10 := by
  have hf : Fields (TrimSpace (str "Y " ++ bigDecimal.text)) = [str "Y", bigDecimal.text] := by
    decide
  have hd : bigDecimal.wellFormed = true := by decide
  have hb : overflowBound ≤ |bigDecimal.toRat| := by
    rw [toRat_samples.2.2.2, abs_of_pos (by positivity)]
    unfold overflowBound
    norm_num
  refine ⟨hf, hd, toRat_samples.2.2.2, ?_, by decide, toRat_samples.2.2.1, by decide, ?_⟩
  · exact (processLine_decimal _ State.init (str "Y") bigDecimal hf (Or.inl rfl) hd).2 hb
  · unfold F64.finVal
    norm_num

/-- C4, at the failing inputs: `processLine` stores a reading, and logs nothing, for a
second token with text after the number, and for `NaN` and `+Inf`. -/
theorem processLine_accepts_non_decimal :
    processLine (str "Y 12.5abc") State.init =
      { State.init with currentData := ⟨true, F64.fin 25 (-1)⟩ } ∧
    processLine (str "Y NaN") State.init = { State.init with currentData := ⟨true, F64.nan⟩ } ∧
    processLine (str "N +Inf") State.init =
      { State.init with currentData := ⟨false, F64.inf false⟩ } ∧
    processLine (str "Y notanumber") State.init =
      { State.init with log := [Diagnostic.invalidAmperage (str "notanumber")] } := by
  decide

/-- C5: a line that is neither empty nor a comment is rejected as malformed when it has
not exactly two fields, and otherwise for its vibration field when the first field is
neither `Y` nor `N`; the stored reading stays as it was. -/
theorem processLine_rejects (line : GoString) (st : State) (hne : line ≠ [])
    (hc : HasPrefix line (str "#") = false) :
    ((Fields line).length ≠ 2 →
      processLine line st = { st with log := st.log ++ [Diagnostic.malformed line] }) ∧
    (∀ t1 t2, Fields line = [t1, t2] → t1 ≠ str "Y" → t1 ≠ str "N" →
      processLine line st = { st with log := st.log ++ [Diagnostic.invalidVibration t1] }) := by
  have he : line.isEmpty = false := by simpa [List.isEmpty_iff] using hne
  refine ⟨?_, ?_⟩
  · intro hl
    simp [processLine, hc, he, hl]
  · intro t1 t2 hf hy hn
    simp [processLine, hc, he, hf, hy, hn]

/-- C5, at the lines `Y`, `X 5` and `y 5`. -/
theorem processLine_rejects_witness :
    processLine (str "Y") State.init =
      { State.init with log := [Diagnostic.malformed (str "Y")] } ∧
    processLine (str "X 5") State.init =
      { State.init with log := [Diagnostic.invalidVibration (str "X")] } ∧
    processLine (str "y 5") State.init =
      { State.init with log := [Diagnostic.invalidVibration (str "y")] } :=
  ⟨(processLine_rejects (str "Y") State.init (by decide) (by decide)).1 (by decide),
    (processLine_rejects (str "X 5") State.init (by decide) (by decide)).2 (str "X") (str "5")
      (by decide) (by decide) (by decide),
    (processLine_rejects (str "y 5") State.init (by decide) (by decide)).2 (str "y") (str "5")
      (by decide) (by decide) (by decide)⟩

/-- C6: a record that is empty after trimming, or then begins with `#`, is skipped: the
state after `processLine`, log and stored reading included, is the state before. -/
theorem processLine_skips (record : GoString) (st : State)
    (h : TrimSpace record = [] ∨ HasPrefix (TrimSpace record) (str "#") = true) :
    processLine (TrimSpace record) st = st := by
  rcases h with h | h
  · simp [processLine, h]
  · simp [processLine, h]

/-- C6, at the records `# comment` (indented) and the blank record. -/
theorem processLine_skips_witness :
    processLine (TrimSpace (str "  # comment\r")) ⟨[], ⟨true, F64.ofNat 7⟩, []⟩ =
      ⟨[], ⟨true, F64.ofNat 7⟩, []⟩ ∧
    processLine (TrimSpace (str " \t")) ⟨[], ⟨true, F64.ofNat 7⟩, []⟩ =
      ⟨[], ⟨true, F64.ofNat 7⟩, []⟩ :=
  ⟨processLine_skips (str "  # comment\r") _ (Or.inr (by decide)),
    processLine_skips (str " \t") _ (Or.inl (by decide))⟩

/-- After any sequence of chunks `serveData` encodes the vibration and the amperage of the
last complete record of the stream that `processLine` stored (the zero reading when there
is none), with the status `determineStatus` gives that amperage. -/
theorem serveData_last_stored (th : Thresholds) (chunks : List GoString) (now : String) :
    serveData th (readSerialData State.init (chunks.map ReadResult.data)) now =
      Encode
        { Amperage := ((lastValid (completeRecords chunks.flatten)).getD SensorData.zero).Amperage
          Vibration :=
            ((lastValid (completeRecords chunks.flatten)).getD SensorData.zero).Vibration
          Status := determineStatus th
            ((lastValid (completeRecords chunks.flatten)).getD SensorData.zero).Amperage
          Timestamp := now } := by
  simp only [serveData, readSerialData_currentData]

/-- The end-to-end scenario: with thresholds 5 and 20 the queries after each of the lines
`N 2`, `Y 10`, `Y 25` return `Off`, `Running`, `Malfunctioning` with vibration false, true,
true. -/
theorem serveData_scenario :
    serveData ⟨F64.ofNat 5, F64.ofNat 20⟩
        (readSerialData State.init [ReadResult.data (str "N 2\n")]) "12:00:00"
      = some ⟨F64.ofNat 2, false, MachineStatus.Off, "12:00:00"⟩ ∧
    serveData ⟨F64.ofNat 5, F64.ofNat 20⟩
        (readSerialData State.init
          [ReadResult.data (str "N 2\n"), ReadResult.data (str "Y 10\n")]) "12:00:01"
      = some ⟨F64.ofNat 10, true, MachineStatus.Running, "12:00:01"⟩ ∧
    serveData ⟨F64.ofNat 5, F64.ofNat 20⟩
        (readSerialData State.init
          [ReadResult.data (str "N 2\n"), ReadResult.data (str "Y 10\n"),
            ReadResult.data (str "Y 25\n")]) "12:00:02"
      = some ⟨F64.ofNat 25, true, MachineStatus.Malfunctioning, "12:00:02"⟩ := by
  decide

/-- C8, at the failing inputs, with thresholds 5 and 20. After the stream `Y 1`, `Y 2abc`
the query returns the amperage 2 of the second record, whose second token is no decimal
number; after the stream `Y 1`, `Y NaN` the stored amperage is NaN and the query returns
no body at all. -/
theorem serveData_after_non_decimal :
    serveData ⟨F64.ofNat 5, F64.ofNat 20⟩
        (readSerialData State.init [ReadResult.data (str "Y 1\nY 2abc\n")]) "12:00:00"
      = some ⟨F64.ofNat 2, true, MachineStatus.Off, "12:00:00"⟩ ∧
    (readSerialData State.init [ReadResult.data (str "Y 1\nY NaN\n")]).currentData
      = ⟨true, F64.nan⟩ ∧
    serveData ⟨F64.ofNat 5, F64.ofNat 20⟩
        (readSerialData State.init [ReadResult.data (str "Y 1\nY NaN\n")]) "12:00:00"
      = none := by
  decide

/-- C10: one framing step loses nothing and keeps terminators out: the lines handed on,
each followed by `\n`, and then the new buffer spell the old buffer followed by the chunk;
neither the new buffer nor a line holds a `\n`; and one round of the loop passes exactly
those lines to `processLine` and keeps exactly that buffer. -/
theorem frameStep_lossless (st : State) (chunk : GoString) :
    ((frameStep st.buffer chunk).1.map fun r => r ++ [0x0A]).flatten
        ++ (frameStep st.buffer chunk).2 = st.buffer ++ chunk ∧
    0x0A ∉ (frameStep st.buffer chunk).2 ∧
    (∀ r ∈ (frameStep st.buffer chunk).1, 0x0A ∉ r) ∧
    loopStep st (ReadResult.data chunk) =
      { processLines (frameStep st.buffer chunk).1 st with
        buffer := (frameStep st.buffer chunk).2 } := by
  rw [frameStep_eq]
  exact ⟨frameOf_lossless _ _, (frameOf_not_mem _ _).1, (frameOf_not_mem _ _).2,
    loopStep_data st chunk⟩

/-! ## The library models on sample inputs -/

/-- The models of `strings.Split`, `strings.TrimSpace` and `strings.Fields` on sample
inputs, among them white space that is not ASCII (U+00A0, U+2003, U+3000) and an
incomplete encoding. -/
theorem strings_samples :
    Split (str "N 2\nY 10\nY") 0x0A = [str "N 2", str "Y 10", str "Y"] ∧
    Split (str "N 2\n") 0x0A = [str "N 2", []] ∧
    Split [] 0x0A = [[]] ∧
    TrimSpace (str "  Y 12.5 \r") = str "Y 12.5" ∧
    TrimSpace ([0xC2, 0xA0] ++ str "Y 12.5 " ++ [0xE3, 0x80, 0x80]) = str "Y 12.5" ∧
    TrimSpace (str "Y 12.5 " ++ [0xE3, 0x80]) = str "Y 12.5 " ++ [0xE3, 0x80] ∧
    TrimSpace (str " \t ") = [] ∧
    Fields (str "Y \t 12.5") = [str "Y", str "12.5"] ∧
    Fields (str "Y" ++ [0xE2, 0x80, 0x83] ++ str "12.5") = [str "Y", str "12.5"] ∧
    Fields (str "  ") = [] := by
  decide

/-- The model of rounding to float64 on sample inputs: 12.5, 0.1, 0.3, and the ties
`2 ^ 53 + 1` and `2 ^ 53 + 3`. -/
theorem roundF64_samples :
    roundF64 false 125 10 = F64.fin 25 (-1) ∧
    roundF64 false 1 10 = F64.fin 3602879701896397 (-55) ∧
    roundF64 false 3 10 = F64.fin 5404319552844595 (-54) ∧
    roundF64 false (2 ^ 53 + 1) 1 = F64.fin 1 53 ∧
    roundF64 false (2 ^ 53 + 3) 1 = F64.fin (2 ^ 51 + 1) 2 := by
  decide

/-- The model of `strconv.ParseFloat` on sample inputs. -/
theorem ParseFloat_samples :
    ParseFloat (str "12.5") = some (F64.fin 25 (-1)) ∧
    ParseFloat (str "-0.05e2") = some (F64.fin (-5) 0) ∧
    ParseFloat (str "1_0") = some (F64.fin 5 1) ∧
    ParseFloat (str "1__0") = none ∧
    ParseFloat (str "0x1.8p3") = some (F64.fin 3 2) ∧
    ParseFloat (str "0x10") = none ∧
    ParseFloat (str "+Inf") = some (F64.inf false) ∧
    ParseFloat (str "-infinity") = some (F64.inf true) ∧
    ParseFloat (str "-infinit") = none ∧
    ParseFloat (str "nAn") = some F64.nan ∧
    ParseFloat (str "12.5abc") = none ∧
    ParseFloat (str "5.") = some (F64.fin 5 0) ∧
    ParseFloat (str ".5") = some (F64.fin 1 (-1)) ∧
    ParseFloat (str ".") = none ∧
    ParseFloat (str "1e") = none := by
  decide

/-- The model of `fmt.Sscanf` with the verb `%f` on sample inputs: text after the token is
not looked at, and the tokens `NaN` and `Inf` are read. -/
theorem Sscanf_samples :
    Sscanf (str "12.5") = some (F64.fin 25 (-1)) ∧
    Sscanf (str "3") = some (F64.fin 3 0) ∧
    Sscanf (str "12.5abc") = some (F64.fin 25 (-1)) ∧
    Sscanf (str "1e5x") = some (F64.fin 3125 5) ∧
    Sscanf (str "NaN") = some F64.nan ∧
    Sscanf (str "-Infinity") = some (F64.inf true) ∧
    Sscanf (str "1p4") = some (F64.fin 1 4) ∧
    Sscanf (str "0x1p-2") = some (F64.fin 1 (-2)) ∧
    Sscanf (str "1P4") = none ∧
    Sscanf (str "1p1_0") = none ∧
    Sscanf (str "notanumber") = none ∧
    Sscanf (str "abc") = none ∧
    Sscanf (str "12.5e") = none := by
  decide

end Motor
